import Mathlib

/-!
# NUMA round-robin allocator (`numa_alloc.c`)

A shallow embedding of the interposed `malloc` / `free` / `calloc` / `realloc`
of `numa_alloc.c`, together with a small model of the operating-system
services the allocator consumes (`mmap`, `munmap`, `mbind`, `sysconf`,
`numa_available`, `numa_max_node`).

Conventions.

* `size_t` and pointers are natural numbers below `2 ^ 64`; every arithmetic
  operation the C code performs on them is followed by an explicit
  `% 2 ^ 64`.  The null pointer is `0`.
* `int` values (`num_nodes`, `next_node_to_use`) are integers; an `int`
  addition is followed by the 32-bit two's complement wrap `int_wrap`, and the
  remainder operator of C is `Int.tmod`.
* Memory is a total map from byte addresses to byte values.  Access faults are
  not modelled: whether an address is backed by a mapping is read from the
  list of mapped regions.
* The kernel is nondeterministic in where it places a mapping and in whether
  `mbind` succeeds.  Both choices are inputs of a call (`OsAnswer`).  A
  proposed placement is accepted by `mmap` only when it is a legal one.
* The calling thread holds the mutex for the whole cursor update, so a call is
  one atomic step of a sequential state machine.
* On its bind-failure path `malloc` calls `perror`, and the C library's
  `perror` may call `malloc` and `free`, which are the interposed ones.  Which
  calls it makes is an input of the call (`OsAnswer.perror_calls`); the nested
  calls run through the same `malloc` and `free` as every other call.
* The warm-up loop keeps, beside the memory, the list of offsets it has stored
  to, so that the order of its stores can be stated.
-/

namespace NumaAlloc

/-! ## Machine words -/

/-- The number of values of `size_t` (and of a pointer). -/
def SIZE_MOD : Nat := 2 ^ 64

/-- The constant `__SIZE_MAX__`. -/
def SIZE_MAX : Nat := 2 ^ 64 - 1

/-- The value `sizeof(size_t)`, the size of the header in front of a block. -/
def metadata_size : Nat := 8

/-- Addition of two `size_t` values, as the machine performs it. -/
def size_add (a b : Nat) : Nat := (a + b) % SIZE_MOD

/-- Multiplication of two `size_t` values, as the machine performs it. -/
def size_mul (a b : Nat) : Nat := (a * b) % SIZE_MOD

/-- Pointer plus byte offset: `(char*)p + n`. -/
def ptr_add (p n : Nat) : Nat := (p + n) % SIZE_MOD

/-- Pointer minus byte offset: `(char*)p - n`, for `n` at most `2 ^ 64`. -/
def ptr_sub (p n : Nat) : Nat := (p + SIZE_MOD - n) % SIZE_MOD

/-- The expression `1UL << t` for an `int` shift count `t`.  For `t` in
`0 .. 63` this is the C value.  For other counts C leaves the shift undefined;
the embedding takes the 64-bit truncation of `2 ^ t`, which is `0` from
`t = 64` on. -/
def shl_one (t : Int) : Nat := (2 ^ t.toNat) % SIZE_MOD

/-! ## Byte memory -/

/-- Byte-addressed memory. -/
abbrev Mem := Nat → Nat

/-- The store `((char*)base)[i] = v`. -/
def store_byte (m : Mem) (a v : Nat) : Mem :=
  fun x => if x = a then v % 256 else m x

/-- The store `*(size_t*)a = v`: eight bytes, least significant first. -/
def store_size_t (m : Mem) (a v : Nat) : Mem :=
  fun x => if a ≤ x ∧ x < a + 8 then (v / 256 ^ (x - a)) % 256 else m x

/-- The load `*(size_t*)a`: eight bytes, least significant first. -/
def load_size_t (m : Mem) (a : Nat) : Nat :=
  m a % 256
    + (m (a + 1) % 256) * 256 ^ 1
    + (m (a + 2) % 256) * 256 ^ 2
    + (m (a + 3) % 256) * 256 ^ 3
    + (m (a + 4) % 256) * 256 ^ 4
    + (m (a + 5) % 256) * 256 ^ 5
    + (m (a + 6) % 256) * 256 ^ 6
    + (m (a + 7) % 256) * 256 ^ 7

/-- The bytes `[a, a + n)` read as zero: what a fresh anonymous mapping
shows. -/
def zero_fill (m : Mem) (a n : Nat) : Mem :=
  fun x => if a ≤ x ∧ x < a + n then 0 else m x

/-- The call `memcpy(dst, src, n)`.  Every source byte is read from the memory
before the call (for overlapping ranges C leaves the result undefined). -/
def memcpy (m : Mem) (dst src n : Nat) : Mem :=
  fun x => if dst ≤ x ∧ x < dst + n then m (src + (x - dst)) else m x

/-! ## Platform and kernel -/

/-- Answers of the platform that do not change during the life of the
process. -/
structure Env where
  /-- Result of `sysconf(_SC_PAGESIZE)`, as the `size_t` value that the loop
  of `first_touch_pages` adds to its index. -/
  page_size : Nat
  /-- Result of `numa_available()`; `-1` means no NUMA support. -/
  numa_available : Int
  /-- Result of `numa_max_node()`. -/
  numa_max_node : Int

/-- What the C library's `perror` does when `malloc` calls it on its
bind-failure path.  It may call back into the allocator: glibc, when the error
stream is a terminal, writes the message through a temporary stream, which
takes one block from `malloc` for the stream and one for its buffer and gives
both back to `free` before `perror` returns.

`done` is a `perror` that makes no (further) call of the allocator.
`call size mmap_addr mbind_ok inner next` is a `perror` that calls
`malloc(size)`; `mmap_addr` and `mbind_ok` are what the kernel answers to that
nested call, and `inner` is what the `perror` of the nested call does.  When
the nested call returns null, `perror` makes no further call; otherwise it goes
on as `next` says and then calls `free` on the block. -/
inductive Script where
  | done
  | call (size : Nat) (mmap_addr : Option Nat) (mbind_ok : Bool) (inner next : Script)
deriving DecidableEq, Repr

/-- The choices the environment makes during one allocation call. -/
structure OsAnswer where
  /-- Where the kernel would place the new mapping; `none` is `ENOMEM`. -/
  mmap_addr : Option Nat
  /-- Whether `mbind` returns `0`. -/
  mbind_ok : Bool
  /-- What `perror` does if the call reaches it.  By default it makes no call
  of the allocator. -/
  perror_calls : Script := Script.done

/-- A mapped region: the address `mmap` returned and the length it was asked
for.  The region occupies the whole pages that meet `[start, start + len)`. -/
structure Region where
  start : Nat
  len : Nat
deriving DecidableEq, Repr

/-- What the allocator did that is visible outside it, in call order. -/
inductive Event where
  /-- The node selector handed out this node. -/
  | select (node : Int)
  /-- The call `mmap(NULL, len, ...)` and its result. -/
  | mmap (len : Nat) (result : Option Nat)
  /-- The call `mbind(addr, len, MPOL_BIND, &mask, 64, 0)` and whether it
  returned `0`. -/
  | mbind (addr len mask : Nat) (ok : Bool)
  /-- The call `munmap(addr, len)`. -/
  | munmap (addr len : Nat)
deriving DecidableEq, Repr

/-- The process state the allocator reads and writes. -/
structure State where
  /-- Whether `pthread_once(&init_once, ...)` has already run. -/
  init_once : Bool
  num_nodes : Int
  next_node_to_use : Int
  /-- The anonymous mappings of the process. -/
  mapped : List Region
  mem : Mem
  /-- Log of node selections and system calls. -/
  trace : List Event

/-- The state at process start: the initial values of the C statics, no
mapping, nothing logged. -/
def State.initial : State :=
  { init_once := false, num_nodes := 0, next_node_to_use := 0,
    mapped := [], mem := fun _ => 0, trace := [] }

/-- Length `n` rounded up to whole pages of `P` bytes. -/
def round_up (P n : Nat) : Nat := ((n + P - 1) / P) * P

/-- First address after the pages of region `r`. -/
def Region.page_end (P : Nat) (r : Region) : Nat := r.start + round_up P r.len

/-- The pages of `r` share no page with `[a, e)`. -/
def Region.apart (P : Nat) (a e : Nat) (r : Region) : Prop :=
  e ≤ r.start ∨ r.page_end P ≤ a

instance (P a e : Nat) (r : Region) : Decidable (r.apart P a e) := by
  unfold Region.apart; infer_instance

/-- The kernel accepts placing `len` bytes at `a`: the address is a nonzero
multiple of the page size, the pages end below the top of the address space,
and none of them is in use. -/
def placement_ok (P : Nat) (mapped : List Region) (a len : Nat) : Prop :=
  a ≠ 0 ∧ a % P = 0 ∧ a + round_up P len < SIZE_MOD ∧
    ∀ r ∈ mapped, r.apart P a (a + round_up P len)

instance (P : Nat) (mapped : List Region) (a len : Nat) :
    Decidable (placement_ok P mapped a len) := by
  unfold placement_ok; infer_instance

/-- The call `mmap(NULL, len, PROT_READ | PROT_WRITE, MAP_PRIVATE |
MAP_ANONYMOUS, -1, 0)`.  Length zero is `EINVAL`.  The result is `none` for
`MAP_FAILED`.  On success the pages of the new region read as zero. -/
def sys_mmap (env : Env) (os : OsAnswer) (s : State) (len : Nat) :
    Option Nat × State :=
  if len = 0 then (none, { s with trace := s.trace ++ [Event.mmap len none] })
  else
    match os.mmap_addr with
    | none => (none, { s with trace := s.trace ++ [Event.mmap len none] })
    | some a =>
      if placement_ok env.page_size s.mapped a len then
        (some a,
          { s with
            mapped := { start := a, len := len } :: s.mapped,
            mem := zero_fill s.mem a (round_up env.page_size len),
            trace := s.trace ++ [Event.mmap len (some a)] })
      else (none, { s with trace := s.trace ++ [Event.mmap len none] })

/-- What is left of region `r` after the pages in `[a, e)` are unmapped. -/
def Region.trim (P a e : Nat) (r : Region) : List Region :=
  if r.apart P a e then [r]
  else
    (if r.start < a then [{ start := r.start, len := a - r.start }] else []) ++
    (if e < r.page_end P then [{ start := e, len := r.page_end P - e }] else [])

/-- The call `munmap(addr, len)`: `EINVAL` (nothing happens) when `addr` is
not page aligned or `len` is zero; otherwise every page that meets
`[addr, addr + len)` is unmapped. -/
def sys_munmap (env : Env) (s : State) (addr len : Nat) : State :=
  let s1 := { s with trace := s.trace ++ [Event.munmap addr len] }
  if addr % env.page_size ≠ 0 ∨ len = 0 then s1
  else
    { s1 with
      mapped := s.mapped.flatMap
        (Region.trim env.page_size addr (addr + round_up env.page_size len)) }

/-- The call `mbind(addr, len, MPOL_BIND, &mask, 64, 0)`.  It changes where
the kernel takes the physical pages of the range from, which is not part of
the state; the call and its outcome are logged. -/
def sys_mbind (os : OsAnswer) (s : State) (addr len mask : Nat) : Bool × State :=
  (os.mbind_ok,
    { s with trace := s.trace ++ [Event.mbind addr len mask os.mbind_ok] })

/-! ## The allocator -/

/-- The value `INT_MAX` of a 32-bit `int`. -/
def INT_MAX : Int := 2 ^ 31 - 1

/-- The result of an `int` operation whose mathematical value is `z`, on a
two's complement machine. -/
def int_wrap (z : Int) : Int := (z + 2 ^ 31) % 2 ^ 32 - 2 ^ 31

/-- The function `init_allocator`. -/
def init_allocator (env : Env) (s : State) : State :=
  if env.numa_available = -1 then { s with num_nodes := 1 }
  else
    let s1 := { s with num_nodes := int_wrap (env.numa_max_node + 1) }
    if s1.num_nodes ≤ 0 then { s1 with num_nodes := 1 } else s1

/-- The call `pthread_once(&init_once, init_allocator)`. -/
def pthread_once (env : Env) (s : State) : State :=
  if s.init_once then s else { init_allocator env s with init_once := true }

/-- The loop of `first_touch_pages`, from index `i` on.  Beside the memory it
carries `written`, the offsets it has stored to so far, oldest first.  The
result is `none` when the loop is still running after `fuel` tests of its
condition. -/
def touch_loop (P ptr size : Nat) : Nat → Nat → Mem → List Nat → Option (Mem × List Nat)
  | 0, _, _, _ => none
  | fuel + 1, i, m, written =>
    if i < size then
      touch_loop P ptr size fuel (size_add i P) (store_byte m (ptr_add ptr i) 0)
        (written ++ [i])
    else some (m, written)

/-- The function `first_touch_pages(ptr, size)`, run for at most `fuel` tests
of the loop condition: the memory it leaves, and the offsets it stored to, in
the order of the stores. -/
def first_touch_pages (env : Env) (fuel : Nat) (m : Mem) (ptr size : Nat) :
    Option (Mem × List Nat) :=
  touch_loop env.page_size ptr size fuel 0 m []

/-- Loop tests granted to the warm-up of a region of `size` bytes: one per
page start below `size`, and the final failing test. -/
def touch_fuel (env : Env) (size : Nat) : Nat := size / env.page_size + 2

/-- The critical section of `malloc`: hand out the cursor and advance it. -/
def next_node (s : State) : Int × State :=
  (s.next_node_to_use,
    { s with
      next_node_to_use := Int.tmod (int_wrap (s.next_node_to_use + 1)) s.num_nodes,
      trace := s.trace ++ [Event.select s.next_node_to_use] })

/-- The function `free(user_ptr)`. -/
def free (env : Env) (s : State) (user_ptr : Nat) : State :=
  if user_ptr = 0 then s
  else
    let original_ptr := ptr_sub user_ptr metadata_size
    let original_size := load_size_t s.mem original_ptr
    let total_size := size_add original_size metadata_size
    sys_munmap env s original_ptr total_size

/-- The body of `malloc(size)`, with the effect `on_perror` of the call
`perror("mbind failed")` on the state.  The result is `none` when the call
does not return; otherwise it is the returned pointer and the state after the
call. -/
def malloc_body (env : Env) (os : OsAnswer) (on_perror : State → Option State)
    (s : State) (size : Nat) : Option (Nat × State) :=
  let s0 := pthread_once env s
  if size = 0 then some (0, s0)
  else
    let (target_node, s1) := next_node s0
    let total_size_needed := size_add size metadata_size
    match sys_mmap env os s1 total_size_needed with
    | (none, s2) => some (0, s2)
    | (some ptr, s2) =>
      let nodemask := shl_one target_node
      match sys_mbind os s2 ptr total_size_needed nodemask with
      | (false, s3) =>
        match on_perror s3 with
        | none => none
        | some s4 => some (0, sys_munmap env s4 ptr total_size_needed)
      | (true, s3) =>
        match first_touch_pages env (touch_fuel env total_size_needed) s3.mem ptr
            total_size_needed with
        | none => none
        | some touched =>
          some (ptr_add ptr metadata_size,
            { s3 with mem := store_size_t touched.1 ptr size })

/-- The call `perror("mbind failed")`, as the script says: each nested request
goes through `malloc` (whose own `perror` follows the inner script), and a
block that was obtained is given back through `free` after the rest of the
script has run. -/
def perror (env : Env) : Script → State → Option State
  | Script.done, s => some s
  | Script.call size mmap_addr mbind_ok inner next, s =>
    match malloc_body env
        { mmap_addr := mmap_addr, mbind_ok := mbind_ok, perror_calls := inner }
        (perror env inner) s size with
    | none => none
    | some (p, s1) =>
      if p = 0 then some s1
      else
        match perror env next s1 with
        | none => none
        | some s2 => some (free env s2 p)

/-- The function `malloc(size)`.  The result is `none` when the call does not
return; otherwise it is the returned pointer and the state after the call. -/
def malloc (env : Env) (os : OsAnswer) (s : State) (size : Nat) :
    Option (Nat × State) :=
  malloc_body env os (perror env os.perror_calls) s size

/-- The overflow test at the head of `calloc`. -/
def calloc_overflows (nmemb size : Nat) : Bool :=
  decide (0 < nmemb ∧ SIZE_MAX / nmemb < size)

/-- The function `calloc(nmemb, size)`. -/
def calloc (env : Env) (os : OsAnswer) (s : State) (nmemb size : Nat) :
    Option (Nat × State) :=
  if calloc_overflows nmemb size then some (0, s)
  else malloc env os s (size_mul nmemb size)

/-- The function `realloc(user_ptr, new_size)`. -/
def realloc (env : Env) (os : OsAnswer) (s : State) (user_ptr new_size : Nat) :
    Option (Nat × State) :=
  if user_ptr = 0 then malloc env os s new_size
  else if new_size = 0 then some (0, free env s user_ptr)
  else
    let original_ptr := ptr_sub user_ptr metadata_size
    let original_size := load_size_t s.mem original_ptr
    match malloc env os s new_size with
    | none => none
    | some (new_user_ptr, s1) =>
      if new_user_ptr = 0 then some (0, s1)
      else
        let copy_size := if original_size < new_size then original_size else new_size
        let s2 := { s1 with mem := memcpy s1.mem new_user_ptr user_ptr copy_size }
        some (new_user_ptr, free env s2 user_ptr)

/-- Consecutive `malloc` calls, each with its kernel answers and its size.
The result is the state after the last call. -/
def malloc_seq (env : Env) : List (OsAnswer × Nat) → State → Option State
  | [], s => some s
  | call :: rest, s =>
    match malloc env call.1 s call.2 with
    | none => none
    | some r => malloc_seq env rest r.2

/-- The state in which `malloc` issues its `mmap`, for a nonzero size: after
the one-time initialisation and the cursor update. -/
def malloc_pre (env : Env) (s : State) : State := (next_node (pthread_once env s)).2

/-- A platform with two NUMA nodes and pages of 4096 bytes. -/
def two_node_env : Env :=
  { page_size := 4096, numa_available := 0, numa_max_node := 1 }

/-- The state of a process on `two_node_env` after the one-time
initialisation, before any allocation: two nodes, cursor `0`. -/
def two_node_start : State := pthread_once two_node_env State.initial

/-- The kernel places the mapping at `a` and `mbind` succeeds. -/
def os_at (a : Nat) : OsAnswer := { mmap_addr := some a, mbind_ok := true }

/-- Five allocation requests: three that succeed, one whose `mmap` fails and
one whose `mbind` fails. -/
def five_calls : List (OsAnswer × Nat) :=
  [(os_at 0x7f0000001000, 16), ({ mmap_addr := none, mbind_ok := true }, 100),
   (os_at 0x7f0000003000, 5000),
   ({ mmap_addr := some 0x7f0000008000, mbind_ok := false }, 1),
   (os_at 0x7f0000009000, 4088)]

/-- A platform with four NUMA nodes and pages of 4096 bytes. -/
def four_node_env : Env :=
  { page_size := 4096, numa_available := 0, numa_max_node := 3 }

/-- The state of a process on `four_node_env` after the one-time
initialisation, before any allocation: four nodes, cursor `0`. -/
def four_node_start : State := pthread_once four_node_env State.initial

/-- The allocator calls of glibc's `perror` when the error stream is a
terminal: `malloc(472)` for a temporary stream, `malloc(1024)` for its buffer,
then `free` of the buffer and `free` of the stream.  The kernel places the two
mappings at `0x7f0000001000` and `0x7f0000000000`, and both binds succeed. -/
def terminal_perror : Script :=
  Script.call 472 (some 0x7f0000001000) true Script.done
    (Script.call 1024 (some 0x7f0000000000) true Script.done Script.done)

/-- The kernel places the mapping at `a`, `mbind` fails, and `perror` writes
to a terminal. -/
def bind_fails_at (a : Nat) : OsAnswer :=
  { mmap_addr := some a, mbind_ok := false, perror_calls := terminal_perror }

/-- Three allocation requests of sixteen bytes; the bind of the second one
fails. -/
def three_calls : List (OsAnswer × Nat) :=
  [(os_at 0x7f0000003000, 16), (bind_fails_at 0x7f0000002000, 16),
   (os_at 0x7f0000002000, 16)]

/-- The safety contract of one `malloc(size)` call that started in state `s`
and returned `res`: either the result is a pointer `p` and all of
`[p, p + size)` lies in the pages of a region that the call mapped, or the
result is null and the mappings are those from before the call. -/
def malloc_safe (env : Env) (s : State) (size : Nat) (res : Nat × State) : Prop :=
  (res.1 ≠ 0 ∧ ∃ r ∈ res.2.mapped, r ∉ s.mapped ∧
      r.start ≤ res.1 ∧ res.1 + size ≤ r.page_end env.page_size) ∨
  (res.1 = 0 ∧ res.2.mapped = s.mapped)

instance (env : Env) (s : State) (size : Nat) (res : Nat × State) :
    Decidable (malloc_safe env s size res) := by
  unfold malloc_safe; infer_instance

/-- A call of the public interface, with the kernel answers for the
allocation it may make. -/
inductive Call where
  | malloc (os : OsAnswer) (size : Nat)
  | calloc (os : OsAnswer) (nmemb size : Nat)
  | realloc (os : OsAnswer) (user_ptr new_size : Nat)
  | free (user_ptr : Nat)

/-- A process state together with the blocks its callers own: each live
block is the user pointer and the size that was requested for it. -/
structure Heap where
  st : State
  live : List (Nat × Nat)

/-- The heap at process start. -/
def Heap.empty : Heap := { st := State.initial, live := [] }

/-- Whether `p` is the user pointer of a live block. -/
def Heap.is_live (h : Heap) (p : Nat) : Bool := h.live.any (fun b => b.1 = p)

/-- The live blocks without the one at `p`. -/
def Heap.without (h : Heap) (p : Nat) : List (Nat × Nat) :=
  h.live.filter (fun b => b.1 ≠ p)

/-- The live blocks after an allocation of `size` bytes returned `p`. -/
def Heap.with_block (live : List (Nat × Nat)) (p size : Nat) : List (Nat × Nat) :=
  if p = 0 then live else (p, size) :: live

/-- One call of the public interface on a heap.  The result is `none` when the
call does not return, or when it is not a legal call: `free` and `realloc`
take a live pointer or null. -/
def Heap.step (env : Env) (h : Heap) : Call → Option Heap
  | Call.malloc os size =>
    match malloc env os h.st size with
    | none => none
    | some (p, s') => some { st := s', live := Heap.with_block h.live p size }
  | Call.calloc os nmemb size =>
    match calloc env os h.st nmemb size with
    | none => none
    | some (p, s') =>
      some { st := s', live := Heap.with_block h.live p (size_mul nmemb size) }
  | Call.realloc os user_ptr new_size =>
    if user_ptr ≠ 0 ∧ h.is_live user_ptr = false then none
    else
      match realloc env os h.st user_ptr new_size with
      | none => none
      | some (q, s') =>
        if user_ptr = 0 then
          some { st := s', live := Heap.with_block h.live q new_size }
        else if new_size = 0 then some { st := s', live := h.without user_ptr }
        else if q = 0 then some { st := s', live := h.live }
        else some { st := s', live := (q, new_size) :: h.without user_ptr }
  | Call.free user_ptr =>
    if user_ptr = 0 then some { st := free env h.st user_ptr, live := h.live }
    else if h.is_live user_ptr then
      some { st := free env h.st user_ptr, live := h.without user_ptr }
    else none

/-- A sequence of calls, from left to right. -/
def Heap.run (env : Env) : List Call → Heap → Option Heap
  | [], h => some h
  | c :: rest, h =>
    match h.step env c with
    | none => none
    | some h' => Heap.run env rest h'

/-- The region of a live block: it starts `metadata_size` bytes before the
user pointer and is `size + metadata_size` bytes long (as `size_t` computes
the sum). -/
def block_region (b : Nat × Nat) : Region :=
  { start := ptr_sub b.1 metadata_size, len := size_add b.2 metadata_size }

/-- The block invariant for one live block: its region is mapped, and the
header in front of the user pointer holds the requested size. -/
def block_ok (h : Heap) (b : Nat × Nat) : Prop :=
  block_region b ∈ h.st.mapped ∧
    load_size_t h.st.mem (ptr_sub b.1 metadata_size) = b.2

instance (h : Heap) (b : Nat × Nat) : Decidable (block_ok h b) := by
  unfold block_ok; infer_instance

/-- The block invariant: every live block is in order, and the pages of two
different live blocks are apart. -/
def block_invariant (env : Env) (h : Heap) : Prop :=
  (∀ b ∈ h.live, block_ok h b) ∧
    h.live.Pairwise (fun b c =>
      (block_region c).apart env.page_size (block_region b).start
        ((block_region b).page_end env.page_size))

instance (env : Env) (h : Heap) : Decidable (block_invariant env h) := by
  unfold block_invariant; infer_instance

/-- The request of a call does not wrap when the header is added to it (a
`calloc` whose product overflows is rejected before any addition). -/
def Call.fits : Call → Prop
  | Call.malloc _ size => size + metadata_size < SIZE_MOD
  | Call.calloc _ nmemb size =>
    SIZE_MAX < nmemb * size ∨ nmemb * size + metadata_size < SIZE_MOD
  | Call.realloc _ _ new_size => new_size + metadata_size < SIZE_MOD
  | Call.free _ => True

/-- The mappings are in order: every region is nonempty, page aligned and
below the top of the address space, and the pages of two different regions
are apart. -/
def mapped_ok (P : Nat) (mapped : List Region) : Prop :=
  (∀ r ∈ mapped, 0 < r.len ∧ r.start % P = 0 ∧ r.page_end P < SIZE_MOD) ∧
  ∀ r ∈ mapped, ∀ r' ∈ mapped, r' ≠ r → r'.apart P r.start (r.page_end P)

/-- The state of a heap on which no request has wrapped: the mappings are in
order, every live block has a user pointer eight bytes into its mapped
region, a size that fits and an intact header, and live pointers are
distinct. -/
def heap_inv (env : Env) (h : Heap) : Prop :=
  mapped_ok env.page_size h.st.mapped ∧
  (∀ b ∈ h.live, b.2 + metadata_size < SIZE_MOD ∧ metadata_size ≤ b.1 ∧
    b.1 < SIZE_MOD ∧ block_ok h b) ∧
  h.live.Pairwise (fun b c => b.1 ≠ c.1)

/-- Three legal calls: a block of 5000 bytes, a block of 16 bytes, and a
`realloc` of the first block to `SIZE_MAX` bytes.  The kernel places each new
mapping directly below the previous one. -/
def overflow_calls : List Call :=
  [Call.malloc (os_at 0x7f0000003000) 5000,
   Call.malloc (os_at 0x7f0000002000) 16,
   Call.realloc (os_at 0x7f0000001000) 0x7f0000003008 SIZE_MAX]

/-- The context invariant: the one-time initialisation has run, the node count
is a positive `int`, and the cursor is a node index. -/
def ctx_inv (s : State) : Prop :=
  s.init_once = true ∧ 1 ≤ s.num_nodes ∧ s.num_nodes ≤ INT_MAX ∧
    0 ≤ s.next_node_to_use ∧ s.next_node_to_use < s.num_nodes

instance (s : State) : Decidable (ctx_inv s) := by
  unfold ctx_inv; infer_instance

/-- The node count that the initialisation is specified to produce: `1` when
NUMA is unavailable or the reported maximum node index is not positive, and
the maximum node index plus one otherwise. -/
def spec_node_count (env : Env) : Int :=
  if env.numa_available = -1 ∨ env.numa_max_node ≤ 0 then 1
  else env.numa_max_node + 1

/-- A platform with NUMA support that reports `INT_MAX` as its maximum node
index. -/
def int_max_env : Env :=
  { page_size := 4096, numa_available := 0, numa_max_node := INT_MAX }

/-- Whether `node` is in the node set that `mask` denotes when it is passed to
`mbind` with `maxnode = 64`: bit `node` of the one `unsigned long`. -/
def mask_has_node (mask node : Nat) : Bool :=
  decide (node < 64) && mask.testBit node

/-- The mask denotes exactly the one-element node set `{node}`. -/
def mask_is_single (mask : Nat) (node : Int) : Prop :=
  ∀ n : Nat, mask_has_node mask n = true ↔ (n : Int) = node

/-- A platform with 65 NUMA nodes (maximum node index `64`). -/
def env_65 : Env :=
  { page_size := 4096, numa_available := 0, numa_max_node := 64 }

/-- The requests of `k` one-byte `malloc` calls whose mapping the kernel
refuses. -/
def refused_calls (k : Nat) : List (OsAnswer × Nat) :=
  List.replicate k ({ mmap_addr := none, mbind_ok := true }, 1)

/-- The number of pages that a region of `size` bytes meets, for pages of `P`
bytes: `size / P` rounded up. -/
def page_count (P size : Nat) : Nat := (size + P - 1) / P

/-- The offsets that the warm-up is specified to write: the page-aligned
offsets `0, P, 2P, ...` below `size`, in ascending order. -/
def spec_touch_offsets (P size : Nat) : List Nat :=
  (List.range (page_count P size)).map (fun k => k * P)

/-- A platform without NUMA support whose topology answer is `INT_MAX`. -/
def no_numa_env : Env :=
  { page_size := 4096, numa_available := -1, numa_max_node := INT_MAX }

/-- The state in which `malloc` calls `perror`, for a nonzero size whose
region was mapped at `a`: the fresh pages read as zero and the failed `mbind`
is logged. -/
def bind_failed_state (env : Env) (s : State) (size a : Nat) : State :=
  { malloc_pre env s with
    mapped := { start := a, len := size_add size metadata_size } ::
      (malloc_pre env s).mapped,
    mem := zero_fill (malloc_pre env s).mem a
      (round_up env.page_size (size_add size metadata_size)),
    trace := (malloc_pre env s).trace ++
      [Event.mmap (size_add size metadata_size) (some a)] ++
      [Event.mbind a (size_add size metadata_size)
        (shl_one (pthread_once env s).next_node_to_use) false] }

/-- A library call that returns, only appends to the log, and keeps the
context invariant and the node count. -/
def returns_in_context (f : State → Option State) : Prop :=
  ∀ s, ∃ s', f s = some s' ∧ (∃ evs, s'.trace = s.trace ++ evs) ∧
    (ctx_inv s → ctx_inv s' ∧ s'.num_nodes = s.num_nodes)

/-- A library call that leaves the mappings as it found them and changes no
byte of a mapped page. -/
def keeps_mappings (env : Env) (f : State → Option State) : Prop :=
  ∀ s s', f s = some s' → s'.mapped = s.mapped ∧
    ∀ r ∈ s.mapped, ∀ x, r.start ≤ x → x < r.page_end env.page_size →
      s'.mem x = s.mem x

/-- The nodes the selector handed out, in call order. -/
def selected_nodes : List Event → List Int
  | [] => []
  | Event.select n :: es => n :: selected_nodes es
  | _ :: es => selected_nodes es

/-! ## Facts about pages and the warm-up loop -/

theorem le_round_up (P n : Nat) (hP : 0 < P) : n ≤ round_up P n := by
  unfold round_up
  have h1 := Nat.div_add_mod (n + P - 1) P
  have h2 := Nat.mod_lt (n + P - 1) hP
  have h3 : (n + P - 1) / P * P = P * ((n + P - 1) / P) := Nat.mul_comm _ _
  omega

theorem round_up_pos (P n : Nat) (hP : 0 < P) (hn : 0 < n) : 0 < round_up P n :=
  Nat.lt_of_lt_of_le hn (le_round_up P n hP)

theorem placement_ok_page_pos {P : Nat} {mapped : List Region} {a len : Nat}
    (h : placement_ok P mapped a len) : 0 < P := by
  rcases Nat.eq_zero_or_pos P with h0 | h0
  · subst h0
    have h1 := h.1
    have h2 := h.2.1
    simp at h2
    exact absurd h2 h1
  · exact h0

theorem touch_loop_returns (P ptr size : Nat) (hfit : size + P ≤ SIZE_MOD) :
    ∀ (fuel i : Nat) (m : Mem) (w : List Nat), size ≤ i + fuel * P →
      ∃ r, touch_loop P ptr size (fuel + 1) i m w = some r := by
  intro fuel
  induction fuel with
  | zero =>
    intro i m w h
    have hi : ¬ i < size := by omega
    exact ⟨(m, w), by simp [touch_loop, hi]⟩
  | succ k ih =>
    intro i m w h
    by_cases hi : i < size
    · have hstep : size_add i P = i + P := by
        unfold size_add
        exact Nat.mod_eq_of_lt (by omega)
      have hle : size ≤ (i + P) + k * P := by
        have : (k + 1) * P = k * P + P := Nat.succ_mul k P
        omega
      obtain ⟨r, hr⟩ := ih (i + P) (store_byte m (ptr_add ptr i) 0) (w ++ [i]) hle
      refine ⟨r, ?_⟩
      rw [touch_loop]
      simp only [hi, if_true, hstep]
      exact hr
    · exact ⟨(m, w), by rw [touch_loop]; simp [hi]⟩

theorem store_byte_zero_of_zero (m : Mem) (a : Nat) (h : m a = 0) :
    store_byte m a 0 = m := by
  funext x
  unfold store_byte
  by_cases hx : x = a
  · subst hx; simp [h]
  · simp [hx]

theorem touch_loop_of_zero (P ptr size : Nat) (m : Mem)
    (hz : ∀ j, j < size → m (ptr_add ptr j) = 0) :
    ∀ (fuel i : Nat) (w : List Nat) (r : Mem × List Nat),
      touch_loop P ptr size fuel i m w = some r → r.1 = m := by
  intro fuel
  induction fuel with
  | zero => intro i w r h; simp [touch_loop] at h
  | succ k ih =>
    intro i w r h
    rw [touch_loop] at h
    by_cases hi : i < size
    · simp only [hi, if_true] at h
      rw [store_byte_zero_of_zero m _ (hz i hi)] at h
      exact ih _ _ _ h
    · simp only [hi, if_false] at h
      rw [← Option.some.inj h]

theorem touch_fuel_enough (env : Env) (size : Nat) (hP : 0 < env.page_size) :
    size ≤ 0 + (size / env.page_size + 1) * env.page_size := by
  have h1 := Nat.div_add_mod size env.page_size
  have h2 := Nat.mod_lt size hP
  have h3 : (size / env.page_size + 1) * env.page_size
      = env.page_size * (size / env.page_size) + env.page_size := by
    rw [Nat.add_mul, Nat.one_mul, Nat.mul_comm]
  omega

/-- The warm-up of a region that was just mapped returns, and leaves the
memory as it found it: every byte it writes is a zero byte of the fresh
pages. -/
theorem first_touch_fresh (env : Env) (m : Mem) (a len : Nat) (mapped : List Region)
    (hok : placement_ok env.page_size mapped a len) :
    ∃ w, first_touch_pages env (touch_fuel env len)
        (zero_fill m a (round_up env.page_size len)) a len
      = some (zero_fill m a (round_up env.page_size len), w) := by
  have hP := placement_ok_page_pos hok
  have hle := le_round_up env.page_size len hP
  have htop := hok.2.2.1
  have ha : env.page_size ≤ a := by
    have h1 := hok.1
    have h2 := hok.2.1
    exact Nat.le_of_dvd (Nat.pos_of_ne_zero h1) (Nat.dvd_of_mod_eq_zero h2)
  have hfit : len + env.page_size ≤ SIZE_MOD := by omega
  obtain ⟨r, hr⟩ := touch_loop_returns env.page_size a len hfit
    (len / env.page_size + 1) 0 (zero_fill m a (round_up env.page_size len)) []
    (touch_fuel_enough env len hP)
  have hz : ∀ j, j < len →
      zero_fill m a (round_up env.page_size len) (ptr_add a j) = 0 := by
    intro j hj
    have : ptr_add a j = a + j := by
      unfold ptr_add
      exact Nat.mod_eq_of_lt (by omega)
    rw [this]
    unfold zero_fill
    have : a ≤ a + j ∧ a + j < a + round_up env.page_size len := by omega
    simp [this]
  have h1 := touch_loop_of_zero env.page_size a len _ hz _ _ _ _ hr
  refine ⟨r.2, ?_⟩
  unfold first_touch_pages touch_fuel
  rw [hr, ← h1]

theorem selected_nodes_append (l1 l2 : List Event) :
    selected_nodes (l1 ++ l2) = selected_nodes l1 ++ selected_nodes l2 := by
  induction l1 with
  | nil => rfl
  | cons e rest ih => cases e <;> simp [selected_nodes, ih]

/-! ## Facts about the kernel model -/

theorem trim_of_apart (P a e : Nat) (r : Region) (h : r.apart P a e) :
    r.trim P a e = [r] := by
  simp [Region.trim, h]

theorem flatMap_trim_of_apart (P a e : Nat) (l : List Region)
    (h : ∀ r ∈ l, r.apart P a e) : l.flatMap (Region.trim P a e) = l := by
  induction l with
  | nil => rfl
  | cons r rest ih =>
    rw [List.flatMap_cons, trim_of_apart P a e r (h r (List.mem_cons_self _ _)),
      ih (fun x hx => h x (List.mem_cons_of_mem _ hx))]
    rfl

theorem trim_self (P a len : Nat) (hP : 0 < P) (hlen : 0 < len) :
    Region.trim P a (a + round_up P len) { start := a, len := len } = [] := by
  have hpos := round_up_pos P len hP hlen
  have h1 : ¬ Region.apart P a (a + round_up P len) { start := a, len := len } := by
    unfold Region.apart Region.page_end
    simp only []
    omega
  simp [Region.trim, h1, Region.page_end]

/-- Unmapping a region right after it was mapped gives back the list of
mappings from before. -/
theorem munmap_after_mmap (P a len : Nat) (mapped : List Region)
    (hlen : 0 < len) (hok : placement_ok P mapped a len) :
    ({ start := a, len := len } :: mapped).flatMap
        (Region.trim P a (a + round_up P len)) = mapped := by
  have hP := placement_ok_page_pos hok
  rw [List.flatMap_cons, trim_self P a len hP hlen,
    flatMap_trim_of_apart P a _ mapped hok.2.2.2]
  rfl

theorem placement_ok_fresh {P : Nat} {mapped : List Region} {a len : Nat}
    (hok : placement_ok P mapped a len) (hlen : 0 < len) :
    ({ start := a, len := len } : Region) ∉ mapped := by
  intro hmem
  have hP := placement_ok_page_pos hok
  have hpos := round_up_pos P len hP hlen
  have h := hok.2.2.2 _ hmem
  unfold Region.apart Region.page_end at h
  simp only [] at h
  omega

theorem zero_fill_apart (P : Nat) (m : Mem) (a n : Nat) (r : Region) (x : Nat)
    (h : r.apart P a (a + n)) (h1 : r.start ≤ x) (h2 : x < r.page_end P) :
    zero_fill m a n x = m x := by
  unfold Region.apart at h
  unfold zero_fill
  have : ¬ (a ≤ x ∧ x < a + n) := by omega
  simp [this]

theorem placement_ok_lt {P : Nat} {mapped : List Region} {a len : Nat}
    (hok : placement_ok P mapped a len) : a < SIZE_MOD := by
  have := hok.2.2.1
  omega

theorem sys_munmap_mem (env : Env) (s : State) (addr len : Nat) :
    (sys_munmap env s addr len).mem = s.mem := by
  unfold sys_munmap
  by_cases h : addr % env.page_size ≠ 0 ∨ len = 0
  · simp only [h, if_true]
  · simp only [h, if_false]

theorem sys_munmap_mapped (env : Env) (s : State) (addr len : Nat)
    (h1 : addr % env.page_size = 0) (h2 : len ≠ 0) :
    (sys_munmap env s addr len).mapped = s.mapped.flatMap
      (Region.trim env.page_size addr (addr + round_up env.page_size len)) := by
  unfold sys_munmap
  have : ¬ (addr % env.page_size ≠ 0 ∨ len = 0) := by
    intro h
    rcases h with h | h
    · exact h h1
    · exact h2 h
  simp only [this, if_false]

theorem sys_munmap_ctx (env : Env) (s : State) (addr len : Nat) :
    (sys_munmap env s addr len).init_once = s.init_once ∧
    (sys_munmap env s addr len).num_nodes = s.num_nodes ∧
    (sys_munmap env s addr len).next_node_to_use = s.next_node_to_use := by
  unfold sys_munmap
  by_cases h : addr % env.page_size ≠ 0 ∨ len = 0
  · simp only [h, if_true, and_self]
  · simp only [h, if_false, and_self]

theorem load_store_size_t (m : Mem) (a v : Nat) (hv : v < SIZE_MOD) :
    load_size_t (store_size_t m a v) a = v := by
  unfold SIZE_MOD at hv
  unfold load_size_t store_size_t
  have e : ∀ k, a + k - a = k := fun k => by omega
  have c : ∀ k, k < 8 → (a ≤ a + k ∧ a + k < a + 8) := fun k hk => by omega
  have c0 : a ≤ a ∧ a < a + 8 := by omega
  simp only [c0, c 1 (by omega), c 2 (by omega), c 3 (by omega), c 4 (by omega),
    c 5 (by omega), c 6 (by omega), c 7 (by omega), if_true, e, Nat.sub_self]
  norm_num
  omega

theorem load_size_t_congr (m1 m2 : Mem) (a : Nat)
    (h : ∀ x, a ≤ x → x < a + metadata_size → m1 x = m2 x) :
    load_size_t m1 a = load_size_t m2 a := by
  unfold metadata_size at h
  unfold load_size_t
  rw [h a (by omega) (by omega), h (a + 1) (by omega) (by omega),
    h (a + 2) (by omega) (by omega), h (a + 3) (by omega) (by omega),
    h (a + 4) (by omega) (by omega), h (a + 5) (by omega) (by omega),
    h (a + 6) (by omega) (by omega), h (a + 7) (by omega) (by omega)]

theorem ptr_sub_ptr_add (a : Nat) (ha : a < SIZE_MOD) :
    ptr_sub (ptr_add a metadata_size) metadata_size = a := by
  unfold ptr_sub ptr_add metadata_size SIZE_MOD
  unfold SIZE_MOD at ha
  omega

theorem free_mem (env : Env) (s : State) (p : Nat) : (free env s p).mem = s.mem := by
  unfold free
  by_cases h : p = 0
  · simp only [h, if_true]
  · simp only [h, if_false]
    exact sys_munmap_mem env s _ _

/-- The call `free` changes neither the init flag, nor the node count, nor the
cursor. -/
theorem free_ctx (env : Env) (s : State) (p : Nat) :
    (free env s p).init_once = s.init_once ∧
    (free env s p).num_nodes = s.num_nodes ∧
    (free env s p).next_node_to_use = s.next_node_to_use := by
  unfold free
  by_cases h : p = 0
  · simp only [h, if_true, and_self]
  · simp only [h, if_false]
    exact sys_munmap_ctx env s _ _

/-- What `free` does to a block whose header holds `size` and whose region
`(a, size + 8)` is the newest mapping. -/
theorem free_newest (env : Env) (s : State) (p a size : Nat) (rest : List Region)
    (hp : p ≠ 0) (ha : ptr_sub p metadata_size = a)
    (hhdr : load_size_t s.mem a = size)
    (h0 : size_add size metadata_size ≠ 0)
    (hok : placement_ok env.page_size rest a (size_add size metadata_size))
    (hmapped : s.mapped = { start := a, len := size_add size metadata_size } :: rest) :
    free env s p = { s with
      mapped := rest,
      trace := s.trace ++ [Event.munmap a (size_add size metadata_size)] } := by
  have ha0 : a % env.page_size = 0 := hok.2.1
  have hun := munmap_after_mmap env.page_size a _ rest (Nat.pos_of_ne_zero h0) hok
  unfold free
  simp only [hp, if_false, ha, hhdr]
  unfold sys_munmap
  simp [ha0, h0, hmapped, hun]

theorem pthread_once_of_init (env : Env) (s : State) (h : s.init_once = true) :
    pthread_once env s = s := by
  simp [pthread_once, h]

theorem ctx_inv_of_same (s s' : State) (h : ctx_inv s)
    (h1 : s'.init_once = s.init_once) (h2 : s'.num_nodes = s.num_nodes)
    (h3 : s'.next_node_to_use = s.next_node_to_use) : ctx_inv s' := by
  unfold ctx_inv at h ⊢
  rw [h1, h2, h3]
  exact h

theorem cursor_step (N c : Int) (hmax : N ≤ INT_MAX) (hc0 : 0 ≤ c) (hc : c < N) :
    Int.tmod (int_wrap (c + 1)) N = (c + 1) % N := by
  have hw : int_wrap (c + 1) = c + 1 := by
    unfold int_wrap
    unfold INT_MAX at hmax
    omega
  rw [hw]
  exact Int.tmod_eq_emod (by omega) (by omega)

/-! ## What one `malloc` call does -/

theorem init_allocator_frame (env : Env) (s : State) :
    (init_allocator env s).mapped = s.mapped ∧ (init_allocator env s).mem = s.mem ∧
    (init_allocator env s).trace = s.trace ∧
    (init_allocator env s).next_node_to_use = s.next_node_to_use := by
  unfold init_allocator
  by_cases h1 : env.numa_available = -1
  · simp [h1]
  · by_cases h2 : int_wrap (env.numa_max_node + 1) ≤ 0 <;> simp [h1, h2]

theorem pthread_once_frame (env : Env) (s : State) :
    (pthread_once env s).mapped = s.mapped ∧ (pthread_once env s).mem = s.mem ∧
    (pthread_once env s).trace = s.trace ∧
    (pthread_once env s).next_node_to_use = s.next_node_to_use := by
  unfold pthread_once
  by_cases h : s.init_once = true
  · simp [h]
  · simpa [h] using init_allocator_frame env s

theorem malloc_pre_mapped (env : Env) (s : State) :
    (malloc_pre env s).mapped = s.mapped :=
  (pthread_once_frame env s).1

theorem malloc_pre_mem (env : Env) (s : State) :
    (malloc_pre env s).mem = s.mem :=
  (pthread_once_frame env s).2.1

theorem malloc_pre_trace (env : Env) (s : State) :
    (malloc_pre env s).trace = s.trace ++ [Event.select s.next_node_to_use] := by
  have h := pthread_once_frame env s
  show (pthread_once env s).trace ++ [Event.select (pthread_once env s).next_node_to_use] = _
  rw [h.2.2.1, h.2.2.2]

theorem sys_munmap_trace (env : Env) (s : State) (addr len : Nat) :
    (sys_munmap env s addr len).trace = s.trace ++ [Event.munmap addr len] := by
  unfold sys_munmap
  by_cases h : addr % env.page_size ≠ 0 ∨ len = 0
  · simp only [h, if_true]
  · simp only [h, if_false]

theorem free_trace (env : Env) (s : State) (p : Nat) :
    ∃ evs, (free env s p).trace = s.trace ++ evs := by
  unfold free
  by_cases h : p = 0
  · exact ⟨[], by simp only [h, if_true, List.append_nil]⟩
  · simp only [h, if_false]
    exact ⟨_, sys_munmap_trace env s _ _⟩

theorem malloc_pre_ctx (env : Env) (s : State) (h : ctx_inv s) :
    ctx_inv (malloc_pre env s) ∧ (malloc_pre env s).num_nodes = s.num_nodes ∧
    (malloc_pre env s).next_node_to_use = (s.next_node_to_use + 1) % s.num_nodes := by
  obtain ⟨hinit, hN1, hNmax, hc0, hc⟩ := h
  have hpo := pthread_once_of_init env s hinit
  have hstep := cursor_step s.num_nodes s.next_node_to_use hNmax hc0 hc
  have hnext : (malloc_pre env s).next_node_to_use
      = (s.next_node_to_use + 1) % s.num_nodes := by
    simp only [malloc_pre, next_node, hpo]
    exact hstep
  have hnum : (malloc_pre env s).num_nodes = s.num_nodes := by
    simp only [malloc_pre, next_node, hpo]
  have hin : (malloc_pre env s).init_once = true := by
    simp only [malloc_pre, next_node, hpo]
    exact hinit
  refine ⟨⟨hin, ?_, ?_, ?_, ?_⟩, hnum, hnext⟩
  · rw [hnum]; exact hN1
  · rw [hnum]; exact hNmax
  · rw [hnext]; exact Int.emod_nonneg _ (by omega)
  · rw [hnext, hnum]; exact Int.emod_lt_of_pos _ (by omega)

/-! ### The body of `malloc`, for any `perror` -/

theorem body_size_zero (env : Env) (os : OsAnswer) (f : State → Option State)
    (s : State) : malloc_body env os f s 0 = some (0, pthread_once env s) := by
  simp [malloc_body]

/-- A call with nonzero size whose `mmap` fails. -/
theorem body_mmap_failed (env : Env) (os : OsAnswer) (f : State → Option State)
    (s : State) (size : Nat) (hs : size ≠ 0)
    (hfail : size_add size metadata_size = 0 ∨ os.mmap_addr = none ∨
      ∃ a, os.mmap_addr = some a ∧
        ¬ placement_ok env.page_size s.mapped a (size_add size metadata_size)) :
    malloc_body env os f s size = some (0,
      { malloc_pre env s with
        trace := (malloc_pre env s).trace ++
          [Event.mmap (size_add size metadata_size) none] }) := by
  have hm := malloc_pre_mapped env s
  unfold malloc_body
  simp only [hs, if_false]
  show (match sys_mmap env os (malloc_pre env s) (size_add size metadata_size) with
    | (none, s2) => some (0, s2)
    | (some ptr, s2) => _) = _
  rcases hfail with h | h | ⟨a, ha, h⟩
  · simp [sys_mmap, h]
  · by_cases h0 : size_add size metadata_size = 0
    · simp [sys_mmap, h0]
    · simp [sys_mmap, h0, h]
  · by_cases h0 : size_add size metadata_size = 0
    · simp [sys_mmap, h0]
    · rw [← hm] at h
      simp [sys_mmap, h0, ha, h]

/-- A call with nonzero size whose `mmap` succeeds and whose `mbind` fails:
`perror` runs in `bind_failed_state`, and the region is unmapped in the state
that `perror` leaves. -/
theorem body_bind_failed (env : Env) (os : OsAnswer) (f : State → Option State)
    (s : State) (size a : Nat)
    (hs : size ≠ 0) (h0 : size_add size metadata_size ≠ 0)
    (ha : os.mmap_addr = some a)
    (hok : placement_ok env.page_size s.mapped a (size_add size metadata_size))
    (hb : os.mbind_ok = false) :
    malloc_body env os f s size =
      match f (bind_failed_state env s size a) with
      | none => none
      | some s4 => some (0, sys_munmap env s4 a (size_add size metadata_size)) := by
  have hm := malloc_pre_mapped env s
  rw [← hm] at hok
  unfold malloc_body
  simp only [hs, if_false]
  show (match sys_mmap env os (malloc_pre env s) (size_add size metadata_size) with
    | (none, s2) => some (0, s2)
    | (some ptr, s2) => _) = _
  simp [sys_mmap, h0, ha, hok, sys_mbind, hb, next_node, bind_failed_state]

/-- A call with nonzero size whose `mmap` and `mbind` both succeed. -/
theorem body_success (env : Env) (os : OsAnswer) (f : State → Option State)
    (s : State) (size a : Nat)
    (hs : size ≠ 0) (h0 : size_add size metadata_size ≠ 0)
    (ha : os.mmap_addr = some a)
    (hok : placement_ok env.page_size s.mapped a (size_add size metadata_size))
    (hb : os.mbind_ok = true) :
    malloc_body env os f s size = some (ptr_add a metadata_size,
      { malloc_pre env s with
        mapped := { start := a, len := size_add size metadata_size } ::
          (malloc_pre env s).mapped,
        mem := store_size_t (zero_fill (malloc_pre env s).mem a
          (round_up env.page_size (size_add size metadata_size))) a size,
        trace := (malloc_pre env s).trace ++
          [Event.mmap (size_add size metadata_size) (some a)] ++
          [Event.mbind a (size_add size metadata_size)
            (shl_one (pthread_once env s).next_node_to_use) true] }) := by
  have hm := malloc_pre_mapped env s
  obtain ⟨w, hft⟩ := first_touch_fresh env (malloc_pre env s).mem a _ s.mapped hok
  rw [← hm] at hok
  unfold malloc_body
  simp only [hs, if_false]
  show (match sys_mmap env os (malloc_pre env s) (size_add size metadata_size) with
    | (none, s2) => some (0, s2)
    | (some ptr, s2) => _) = _
  simp [sys_mmap, h0, ha, hok, sys_mbind, hb, hft, next_node]

/-- The three ways a call with nonzero size can go. -/
theorem body_cases (env : Env) (os : OsAnswer) (s : State) (size : Nat) :
    (size_add size metadata_size = 0 ∨ os.mmap_addr = none ∨
      ∃ a, os.mmap_addr = some a ∧
        ¬ placement_ok env.page_size s.mapped a (size_add size metadata_size)) ∨
    (∃ a, size_add size metadata_size ≠ 0 ∧ os.mmap_addr = some a ∧
      placement_ok env.page_size s.mapped a (size_add size metadata_size) ∧
      os.mbind_ok = false) ∨
    (∃ a, size_add size metadata_size ≠ 0 ∧ os.mmap_addr = some a ∧
      placement_ok env.page_size s.mapped a (size_add size metadata_size) ∧
      os.mbind_ok = true) := by
  by_cases h0 : size_add size metadata_size = 0
  · exact Or.inl (Or.inl h0)
  · cases ha : os.mmap_addr with
    | none => exact Or.inl (Or.inr (Or.inl rfl))
    | some a =>
      by_cases hok : placement_ok env.page_size s.mapped a (size_add size metadata_size)
      · cases hb : os.mbind_ok with
        | false => exact Or.inr (Or.inl ⟨a, h0, rfl, hok, rfl⟩)
        | true => exact Or.inr (Or.inr ⟨a, h0, rfl, hok, rfl⟩)
      · exact Or.inl (Or.inr (Or.inr ⟨a, rfl, hok⟩))

theorem bind_failed_state_ctx (env : Env) (s : State) (size a : Nat) :
    (bind_failed_state env s size a).init_once = (malloc_pre env s).init_once ∧
    (bind_failed_state env s size a).num_nodes = (malloc_pre env s).num_nodes ∧
    (bind_failed_state env s size a).next_node_to_use
      = (malloc_pre env s).next_node_to_use :=
  ⟨rfl, rfl, rfl⟩

/-- With a `perror` that returns in context, the body of `malloc` returns for
every size and every answer of the kernel, only appends to the log, and keeps
the context invariant and the node count. -/
theorem body_returns_in_context (env : Env) (os : OsAnswer) (f : State → Option State)
    (hf : returns_in_context f) (s : State) (size : Nat) :
    ∃ p s', malloc_body env os f s size = some (p, s') ∧
      (∃ evs, s'.trace = s.trace ++ evs) ∧
      (ctx_inv s → ctx_inv s' ∧ s'.num_nodes = s.num_nodes) := by
  by_cases hs : size = 0
  · subst hs
    refine ⟨0, pthread_once env s, body_size_zero env os f s,
      ⟨[], by rw [(pthread_once_frame env s).2.2.1, List.append_nil]⟩, ?_⟩
    intro h
    rw [pthread_once_of_init env s h.1]
    exact ⟨h, rfl⟩
  · have htr := malloc_pre_trace env s
    rcases body_cases env os s size with hfail | ⟨a, h0, ha, hok, hb⟩ | ⟨a, h0, ha, hok, hb⟩
    · refine ⟨_, _, body_mmap_failed env os f s size hs hfail,
        ⟨[Event.select s.next_node_to_use] ++
          [Event.mmap (size_add size metadata_size) none], ?_⟩, ?_⟩
      · show (malloc_pre env s).trace ++ _ = _
        rw [htr, List.append_assoc]
      · intro h
        have hp := malloc_pre_ctx env s h
        exact ⟨ctx_inv_of_same _ _ hp.1 rfl rfl rfl, hp.2.1⟩
    · obtain ⟨s4, hf4, ⟨evs, he⟩, hctx⟩ := hf (bind_failed_state env s size a)
      refine ⟨0, sys_munmap env s4 a (size_add size metadata_size), ?_,
        ⟨[Event.select s.next_node_to_use] ++
          [Event.mmap (size_add size metadata_size) (some a)] ++
          [Event.mbind a (size_add size metadata_size)
            (shl_one (pthread_once env s).next_node_to_use) false] ++ evs ++
          [Event.munmap a (size_add size metadata_size)], ?_⟩, ?_⟩
      · rw [body_bind_failed env os f s size a hs h0 ha hok hb, hf4]
      · rw [sys_munmap_trace, he]
        show (malloc_pre env s).trace ++ _ ++ _ ++ evs ++ _ = _
        rw [htr]
        simp only [List.append_assoc]
      · intro h
        have hp := malloc_pre_ctx env s h
        have h3 : ctx_inv (bind_failed_state env s size a) :=
          ctx_inv_of_same _ _ hp.1 rfl rfl rfl
        obtain ⟨h4, hn4⟩ := hctx h3
        have hmu := sys_munmap_ctx env s4 a (size_add size metadata_size)
        refine ⟨ctx_inv_of_same _ _ h4 hmu.1 hmu.2.1 hmu.2.2, ?_⟩
        rw [hmu.2.1, hn4]
        exact hp.2.1
    · refine ⟨_, _, body_success env os f s size a hs h0 ha hok hb,
        ⟨[Event.select s.next_node_to_use] ++
          [Event.mmap (size_add size metadata_size) (some a)] ++
          [Event.mbind a (size_add size metadata_size)
            (shl_one (pthread_once env s).next_node_to_use) true], ?_⟩, ?_⟩
      · show (malloc_pre env s).trace ++ _ ++ _ = _
        rw [htr]
        simp only [List.append_assoc]
      · intro h
        have hp := malloc_pre_ctx env s h
        exact ⟨ctx_inv_of_same _ _ hp.1 rfl rfl rfl, hp.2.1⟩

/-- With a `perror` that returns and keeps the mappings, a call with nonzero
size either maps a region, binds it and returns the address eight bytes into
it, or returns null and leaves every mapping in place, with the bytes of all
mapped pages as they were. -/
theorem body_null_or_success (env : Env) (os : OsAnswer) (f : State → Option State)
    (hr : ∀ s, ∃ s', f s = some s') (hk : keeps_mappings env f)
    (s : State) (size : Nat) (hs : size ≠ 0) :
    (∃ a, size_add size metadata_size ≠ 0 ∧ os.mmap_addr = some a ∧
      placement_ok env.page_size s.mapped a (size_add size metadata_size) ∧
      os.mbind_ok = true ∧
      malloc_body env os f s size = some (ptr_add a metadata_size,
        { malloc_pre env s with
          mapped := { start := a, len := size_add size metadata_size } ::
            (malloc_pre env s).mapped,
          mem := store_size_t (zero_fill (malloc_pre env s).mem a
            (round_up env.page_size (size_add size metadata_size))) a size,
          trace := (malloc_pre env s).trace ++
            [Event.mmap (size_add size metadata_size) (some a)] ++
            [Event.mbind a (size_add size metadata_size)
              (shl_one (pthread_once env s).next_node_to_use) true] })) ∨
    (∃ s', malloc_body env os f s size = some (0, s') ∧ s'.mapped = s.mapped ∧
      ∀ r ∈ s.mapped, ∀ x, r.start ≤ x → x < r.page_end env.page_size →
        s'.mem x = s.mem x) := by
  have hm := malloc_pre_mapped env s
  have hmem := malloc_pre_mem env s
  rcases body_cases env os s size with hfail | ⟨a, h0, ha, hok, hb⟩ | ⟨a, h0, ha, hok, hb⟩
  · exact Or.inr ⟨_, body_mmap_failed env os f s size hs hfail, hm,
      fun _ _ x _ _ => congrFun hmem x⟩
  · obtain ⟨s4, hf4⟩ := hr (bind_failed_state env s size a)
    obtain ⟨hk1, hk2⟩ := hk _ _ hf4
    have hun := munmap_after_mmap env.page_size a _ s.mapped (Nat.pos_of_ne_zero h0) hok
    refine Or.inr ⟨sys_munmap env s4 a (size_add size metadata_size), ?_, ?_, ?_⟩
    · rw [body_bind_failed env os f s size a hs h0 ha hok hb, hf4]
    · rw [sys_munmap_mapped env s4 a _ hok.2.1 h0, hk1]
      show (_ :: (malloc_pre env s).mapped).flatMap _ = _
      rw [hm]
      exact hun
    · intro r hr' x h1 h2
      rw [sys_munmap_mem]
      have hr3 : r ∈ (bind_failed_state env s size a).mapped := by
        show r ∈ _ :: (malloc_pre env s).mapped
        rw [hm]
        exact List.mem_cons_of_mem _ hr'
      rw [hk2 r hr3 x h1 h2]
      show zero_fill (malloc_pre env s).mem a _ x = s.mem x
      rw [zero_fill_apart env.page_size _ a _ r x (hok.2.2.2 r hr') h1 h2, hmem]
  · exact Or.inl ⟨a, h0, ha, hok, hb, body_success env os f s size a hs h0 ha hok hb⟩

/-! ### What `perror` does -/

/-- The call `perror` returns for every script, only appends to the log, and
keeps the context invariant and the node count. -/
theorem perror_returns_in_context (env : Env) (script : Script) :
    returns_in_context (perror env script) := by
  induction script with
  | done => exact fun s => ⟨s, rfl, ⟨[], (List.append_nil _).symm⟩, fun h => ⟨h, rfl⟩⟩
  | call size addr ok inner next ih1 ih2 =>
    intro s
    obtain ⟨p, s1, hm, ⟨e1, ht1⟩, hc1⟩ := body_returns_in_context env
      { mmap_addr := addr, mbind_ok := ok, perror_calls := inner }
      (perror env inner) ih1 s size
    by_cases hp : p = 0
    · refine ⟨s1, ?_, ⟨e1, ht1⟩, hc1⟩
      simp only [perror, hm, hp, if_true]
    · obtain ⟨s2, h2, ⟨e2, ht2⟩, hc2⟩ := ih2 s1
      obtain ⟨e3, ht3⟩ := free_trace env s2 p
      have hfc := free_ctx env s2 p
      refine ⟨free env s2 p, ?_, ⟨e1 ++ e2 ++ e3, ?_⟩, ?_⟩
      · simp only [perror, hm, hp, if_false, h2]
      · rw [ht3, ht2, ht1]
        simp only [List.append_assoc]
      · intro h
        obtain ⟨h1, hn1⟩ := hc1 h
        obtain ⟨h2', hn2⟩ := hc2 h1
        refine ⟨ctx_inv_of_same _ _ h2' hfc.1 hfc.2.1 hfc.2.2, ?_⟩
        rw [hfc.2.1, hn2, hn1]

theorem perror_returns (env : Env) (script : Script) (s : State) :
    ∃ s', perror env script s = some s' := by
  obtain ⟨s', h, _⟩ := perror_returns_in_context env script s
  exact ⟨s', h⟩

theorem load_store_size_t_mod (m : Mem) (a v : Nat) :
    load_size_t (store_size_t m a v) a = v % SIZE_MOD := by
  unfold SIZE_MOD
  unfold load_size_t store_size_t
  have e : ∀ k, a + k - a = k := fun k => by omega
  have c : ∀ k, k < 8 → (a ≤ a + k ∧ a + k < a + 8) := fun k hk => by omega
  have c0 : a ≤ a ∧ a < a + 8 := by omega
  simp only [c0, c 1 (by omega), c 2 (by omega), c 3 (by omega), c 4 (by omega),
    c 5 (by omega), c 6 (by omega), c 7 (by omega), if_true, e, Nat.sub_self]
  norm_num
  omega

theorem size_add_mod (v : Nat) :
    size_add (v % SIZE_MOD) metadata_size = size_add v metadata_size := by
  unfold size_add
  exact Nat.mod_add_mod v SIZE_MOD metadata_size

/-- When pages are at least as large as a header, `perror` gives back every
block it takes: it leaves the mappings as it found them and changes no byte of
a mapped page. -/
theorem perror_keeps_mappings (env : Env) (hpage : metadata_size ≤ env.page_size)
    (script : Script) : keeps_mappings env (perror env script) := by
  have h8 : metadata_size = 8 := rfl
  induction script with
  | done =>
    intro s s' h
    have : s = s' := Option.some.inj h
    subst this
    exact ⟨rfl, fun _ _ _ _ _ => rfl⟩
  | call size addr ok inner next ih1 ih2 =>
    intro s s' h
    by_cases hs : size = 0
    · subst hs
      simp only [perror, body_size_zero, if_true] at h
      have := Option.some.inj h
      subst this
      have hf := pthread_once_frame env s
      exact ⟨hf.1, fun _ _ x _ _ => congrFun hf.2.1 x⟩
    · rcases body_null_or_success env
          { mmap_addr := addr, mbind_ok := ok, perror_calls := inner }
          (perror env inner) (perror_returns env inner) ih1 s size hs with
        ⟨a, h0, _, hok, _, hsucc⟩ | ⟨s1, hnull, hmapped, hmem⟩
      · -- the nested call obtained a block, which `perror` gives back
        have hP := placement_ok_page_pos hok
        have htop := hok.2.2.1
        have hdvd : env.page_size ∣ round_up env.page_size (size_add size metadata_size) :=
          Dvd.intro_left _ rfl
        have hRge := Nat.le_of_dvd
          (round_up_pos env.page_size _ hP (Nat.pos_of_ne_zero h0)) hdvd
        have hpa : ptr_add a metadata_size = a + metadata_size := by
          unfold ptr_add
          exact Nat.mod_eq_of_lt (by omega)
        have hp0 : a + metadata_size ≠ 0 := by omega
        have hmS := malloc_pre_mapped env s
        have hmemS := malloc_pre_mem env s
        simp only [perror, hsucc, hpa, hp0, if_false] at h
        obtain ⟨s2, h2⟩ := perror_returns env next
          { malloc_pre env s with
            mapped := { start := a, len := size_add size metadata_size } ::
              (malloc_pre env s).mapped,
            mem := store_size_t (zero_fill (malloc_pre env s).mem a
              (round_up env.page_size (size_add size metadata_size))) a size,
            trace := (malloc_pre env s).trace ++
              [Event.mmap (size_add size metadata_size) (some a)] ++
              [Event.mbind a (size_add size metadata_size)
                (shl_one (pthread_once env
                  s).next_node_to_use) true] }
        rw [h2] at h
        have hs' : free env s2 (a + metadata_size) = s' := Option.some.inj h
        obtain ⟨hk1, hk2⟩ := ih2 _ _ h2
        have hmap2 : s2.mapped
            = { start := a, len := size_add size metadata_size } :: s.mapped := by
          rw [hk1]
          show _ :: (malloc_pre env s).mapped = _
          rw [hmS]
        have hhdr : load_size_t s2.mem a = size % SIZE_MOD := by
          rw [load_size_t_congr s2.mem _ a (fun x hx1 hx2 =>
            hk2 _ (List.mem_cons_self _ _) x hx1 (by
              unfold Region.page_end
              simp only []
              omega))]
          exact load_store_size_t_mod _ a size
        have hsub : ptr_sub (a + metadata_size) metadata_size = a := by
          rw [← hpa]
          exact ptr_sub_ptr_add a (placement_ok_lt hok)
        have hfree := free_newest env s2 (a + metadata_size) a (size % SIZE_MOD) s.mapped
          hp0 hsub hhdr (by rw [size_add_mod]; exact h0)
          (by rw [size_add_mod]; exact hok) (by rw [size_add_mod]; exact hmap2)
        rw [hfree] at hs'
        subst hs'
        refine ⟨rfl, ?_⟩
        intro r hr x h1 h2'
        show s2.mem x = s.mem x
        have hr1 : r ∈ ({ start := a, len := size_add size metadata_size } : Region) ::
            (malloc_pre env s).mapped := by
          rw [hmS]; exact List.mem_cons_of_mem _ hr
        rw [hk2 r hr1 x h1 h2']
        show store_size_t (zero_fill (malloc_pre env s).mem a _) a size x = s.mem x
        have hap := hok.2.2.2 r hr
        unfold Region.apart at hap
        unfold store_size_t zero_fill
        have c1 : ¬ (a ≤ x ∧ x < a + 8) := by omega
        have c2 : ¬ (a ≤ x ∧
            x < a + round_up env.page_size (size_add size metadata_size)) := by omega
        rw [if_neg c1, if_neg c2, hmemS]
      · simp only [perror, hnull, if_true] at h
        have := Option.some.inj h
        subst this
        exact ⟨hmapped, hmem⟩

/-- The call `perror` of an answer keeps the mappings when it makes no call of
the allocator, and also when pages are at least as large as a header. -/
theorem perror_keeps_of (env : Env) (os : OsAnswer)
    (hre : os.perror_calls = Script.done ∨ metadata_size ≤ env.page_size) :
    keeps_mappings env (perror env os.perror_calls) := by
  rcases hre with hd | hpage
  · rw [hd]
    intro s s' h
    have : s = s' := Option.some.inj h
    subst this
    exact ⟨rfl, fun _ _ _ _ _ => rfl⟩
  · exact perror_keeps_mappings env hpage _

/-! ### The call `malloc` -/

theorem malloc_size_zero (env : Env) (os : OsAnswer) (s : State) :
    malloc env os s 0 = some (0, pthread_once env s) :=
  body_size_zero env os _ s

/-- A call with nonzero size whose `mmap` fails. -/
theorem malloc_mmap_failed (env : Env) (os : OsAnswer) (s : State) (size : Nat)
    (hs : size ≠ 0)
    (hfail : size_add size metadata_size = 0 ∨ os.mmap_addr = none ∨
      ∃ a, os.mmap_addr = some a ∧
        ¬ placement_ok env.page_size s.mapped a (size_add size metadata_size)) :
    malloc env os s size = some (0,
      { malloc_pre env s with
        trace := (malloc_pre env s).trace ++
          [Event.mmap (size_add size metadata_size) none] }) :=
  body_mmap_failed env os _ s size hs hfail

/-- A call with nonzero size whose `mmap` succeeds and whose `mbind` fails:
`perror` runs, and then the region is unmapped. -/
theorem malloc_bind_failed (env : Env) (os : OsAnswer) (s : State) (size a : Nat)
    (hs : size ≠ 0) (h0 : size_add size metadata_size ≠ 0)
    (ha : os.mmap_addr = some a)
    (hok : placement_ok env.page_size s.mapped a (size_add size metadata_size))
    (hb : os.mbind_ok = false) :
    malloc env os s size =
      match perror env os.perror_calls (bind_failed_state env s size a) with
      | none => none
      | some s4 => some (0, sys_munmap env s4 a (size_add size metadata_size)) :=
  body_bind_failed env os _ s size a hs h0 ha hok hb

/-- A call with nonzero size whose `mmap` succeeds and whose `mbind` fails,
with a `perror` that makes no call of the allocator. -/
theorem malloc_bind_failed_done (env : Env) (os : OsAnswer) (s : State) (size a : Nat)
    (hs : size ≠ 0) (h0 : size_add size metadata_size ≠ 0)
    (ha : os.mmap_addr = some a)
    (hok : placement_ok env.page_size s.mapped a (size_add size metadata_size))
    (hb : os.mbind_ok = false) (hdone : os.perror_calls = Script.done) :
    malloc env os s size = some (0,
      { malloc_pre env s with
        mem := zero_fill (malloc_pre env s).mem a
          (round_up env.page_size (size_add size metadata_size)),
        trace := (malloc_pre env s).trace ++
          [Event.mmap (size_add size metadata_size) (some a)] ++
          [Event.mbind a (size_add size metadata_size)
            (shl_one (pthread_once env s).next_node_to_use) false] ++
          [Event.munmap a (size_add size metadata_size)] }) := by
  have hm := malloc_pre_mapped env s
  have hun := munmap_after_mmap env.page_size a _ s.mapped (Nat.pos_of_ne_zero h0) hok
  have ha0 : a % env.page_size = 0 := hok.2.1
  rw [← hm] at hun
  rw [malloc_bind_failed env os s size a hs h0 ha hok hb, hdone]
  simp [perror, bind_failed_state, sys_munmap, ha0, h0, hun]

/-- A call with nonzero size whose `mmap` and `mbind` both succeed. -/
theorem malloc_success (env : Env) (os : OsAnswer) (s : State) (size a : Nat)
    (hs : size ≠ 0) (h0 : size_add size metadata_size ≠ 0)
    (ha : os.mmap_addr = some a)
    (hok : placement_ok env.page_size s.mapped a (size_add size metadata_size))
    (hb : os.mbind_ok = true) :
    malloc env os s size = some (ptr_add a metadata_size,
      { malloc_pre env s with
        mapped := { start := a, len := size_add size metadata_size } ::
          (malloc_pre env s).mapped,
        mem := store_size_t (zero_fill (malloc_pre env s).mem a
          (round_up env.page_size (size_add size metadata_size))) a size,
        trace := (malloc_pre env s).trace ++
          [Event.mmap (size_add size metadata_size) (some a)] ++
          [Event.mbind a (size_add size metadata_size)
            (shl_one (pthread_once env s).next_node_to_use) true] }) :=
  body_success env os _ s size a hs h0 ha hok hb

/-- A call returns, whatever the environment answers; it only appends to the
log, and it keeps the context invariant and the node count. -/
theorem malloc_returns_in_context (env : Env) (os : OsAnswer) (s : State) (size : Nat) :
    ∃ p s', malloc env os s size = some (p, s') ∧
      (∃ evs, s'.trace = s.trace ++ evs) ∧
      (ctx_inv s → ctx_inv s' ∧ s'.num_nodes = s.num_nodes) :=
  body_returns_in_context env os _ (perror_returns_in_context env os.perror_calls) s size

/-- A call with nonzero size whose `perror`, if it runs, makes no call of the
allocator: apart from the mappings, the memory and the log, the state after
the call is the one in which `mmap` was issued. -/
theorem malloc_nonzero_returns (env : Env) (os : OsAnswer) (s : State) (size : Nat)
    (hs : size ≠ 0) (hre : os.mbind_ok = false → os.perror_calls = Script.done) :
    ∃ p s', malloc env os s size = some (p, s') ∧
      s'.init_once = (malloc_pre env s).init_once ∧
      s'.num_nodes = (malloc_pre env s).num_nodes ∧
      s'.next_node_to_use = (malloc_pre env s).next_node_to_use ∧
      selected_nodes s'.trace = selected_nodes (malloc_pre env s).trace := by
  rcases body_cases env os s size with hfail | ⟨a, h0, ha, hok, hb⟩ | ⟨a, h0, ha, hok, hb⟩
  · exact ⟨_, _, malloc_mmap_failed env os s size hs hfail, rfl, rfl, rfl,
      by simp [selected_nodes_append, selected_nodes]⟩
  · exact ⟨_, _, malloc_bind_failed_done env os s size a hs h0 ha hok hb (hre hb), rfl, rfl,
      rfl, by simp [selected_nodes_append, selected_nodes]⟩
  · exact ⟨_, _, malloc_success env os s size a hs h0 ha hok hb, rfl, rfl, rfl,
      by simp [selected_nodes_append, selected_nodes]⟩

/-- A call with nonzero size either maps a region, binds it and returns the
address eight bytes into it, or returns null. -/
theorem malloc_null_or_block (env : Env) (os : OsAnswer) (s : State) (size : Nat)
    (hs : size ≠ 0) :
    (∃ a, size_add size metadata_size ≠ 0 ∧ os.mmap_addr = some a ∧
      placement_ok env.page_size s.mapped a (size_add size metadata_size) ∧
      os.mbind_ok = true ∧
      malloc env os s size = some (ptr_add a metadata_size,
        { malloc_pre env s with
          mapped := { start := a, len := size_add size metadata_size } ::
            (malloc_pre env s).mapped,
          mem := store_size_t (zero_fill (malloc_pre env s).mem a
            (round_up env.page_size (size_add size metadata_size))) a size,
          trace := (malloc_pre env s).trace ++
            [Event.mmap (size_add size metadata_size) (some a)] ++
            [Event.mbind a (size_add size metadata_size)
              (shl_one (pthread_once env s).next_node_to_use) true] })) ∨
    (∃ s', malloc env os s size = some (0, s')) := by
  rcases body_cases env os s size with hfail | ⟨a, h0, ha, hok, hb⟩ | ⟨a, h0, ha, hok, hb⟩
  · exact Or.inr ⟨_, malloc_mmap_failed env os s size hs hfail⟩
  · obtain ⟨s4, h4⟩ := perror_returns env os.perror_calls (bind_failed_state env s size a)
    exact Or.inr ⟨_, by rw [malloc_bind_failed env os s size a hs h0 ha hok hb, h4]⟩
  · exact Or.inl ⟨a, h0, ha, hok, hb, malloc_success env os s size a hs h0 ha hok hb⟩

/-- A call with nonzero size either maps a region, binds it and returns the
address eight bytes into it, or returns null and leaves every mapping in
place, with the bytes of all mapped pages as they were.  For a `perror` that
calls the allocator, pages are taken to be at least as large as a header. -/
theorem malloc_null_or_success (env : Env) (os : OsAnswer) (s : State) (size : Nat)
    (hs : size ≠ 0)
    (hre : os.perror_calls = Script.done ∨ metadata_size ≤ env.page_size) :
    (∃ a, size_add size metadata_size ≠ 0 ∧ os.mmap_addr = some a ∧
      placement_ok env.page_size s.mapped a (size_add size metadata_size) ∧
      os.mbind_ok = true ∧
      malloc env os s size = some (ptr_add a metadata_size,
        { malloc_pre env s with
          mapped := { start := a, len := size_add size metadata_size } ::
            (malloc_pre env s).mapped,
          mem := store_size_t (zero_fill (malloc_pre env s).mem a
            (round_up env.page_size (size_add size metadata_size))) a size,
          trace := (malloc_pre env s).trace ++
            [Event.mmap (size_add size metadata_size) (some a)] ++
            [Event.mbind a (size_add size metadata_size)
              (shl_one (pthread_once env s).next_node_to_use) true] })) ∨
    (∃ s', malloc env os s size = some (0, s') ∧ s'.mapped = s.mapped ∧
      ∀ r ∈ s.mapped, ∀ x, r.start ≤ x → x < r.page_end env.page_size →
        s'.mem x = s.mem x) :=
  body_null_or_success env os _ (perror_returns env os.perror_calls)
    (perror_keeps_of env os hre) s size hs

/-- The call `malloc` returns for every size and every answer of the kernel. -/
theorem malloc_returns (env : Env) (os : OsAnswer) (s : State) (size : Nat) :
    ∃ res, malloc env os s size = some res := by
  obtain ⟨p, s', h, _⟩ := malloc_returns_in_context env os s size
  exact ⟨(p, s'), h⟩

/-- The call `calloc` returns for all arguments and every answer of the
kernel. -/
theorem calloc_returns (env : Env) (os : OsAnswer) (s : State) (nmemb size : Nat) :
    ∃ res, calloc env os s nmemb size = some res := by
  unfold calloc
  by_cases h : calloc_overflows nmemb size = true
  · simp only [h, if_true]
    exact ⟨_, rfl⟩
  · simp only [h]
    exact malloc_returns env os s _

/-- The call `realloc` returns for all arguments and every answer of the
kernel. -/
theorem realloc_returns (env : Env) (os : OsAnswer) (s : State) (p new_size : Nat) :
    ∃ res, realloc env os s p new_size = some res := by
  unfold realloc
  by_cases hp : p = 0
  · simp only [hp, if_true]
    exact malloc_returns env os s _
  · by_cases hn : new_size = 0
    · simp only [hp, hn, if_true, if_false]
      exact ⟨_, rfl⟩
    · obtain ⟨res, hres⟩ := malloc_returns env os s new_size
      obtain ⟨q, s1⟩ := res
      simp only [hp, hn, if_false, hres]
      by_cases hq : q = 0
      · simp only [hq, if_true]
        exact ⟨_, rfl⟩
      · simp only [hq, if_false]
        exact ⟨_, rfl⟩

/-- A result of the warm-up loop does not depend on how much fuel was left
over. -/
theorem touch_loop_more_fuel (P ptr size : Nat) :
    ∀ (fuel k i : Nat) (m : Mem) (w : List Nat) (r : Mem × List Nat),
      touch_loop P ptr size fuel i m w = some r →
      touch_loop P ptr size (fuel + k) i m w = some r := by
  intro fuel
  induction fuel with
  | zero => intro k i m w r h; simp [touch_loop] at h
  | succ n ih =>
    intro k i m w r h
    have e : n + 1 + k = (n + k) + 1 := by omega
    rw [e, touch_loop]
    rw [touch_loop] at h
    by_cases hi : i < size
    · simp only [hi, if_true] at h ⊢
      exact ih k _ _ _ _ h
    · simp only [hi, if_false] at h ⊢
      exact h

/-! ## Round-robin order -/

/-- One call with nonzero size in an initialised state, whose `perror`, if it
runs, makes no call of the allocator: the node handed out is the cursor, and
the cursor moves one step round the cycle. -/
theorem malloc_cursor (env : Env) (os : OsAnswer) (s : State) (size : Nat) (N c : Int)
    (hs : size ≠ 0) (hre : os.mbind_ok = false → os.perror_calls = Script.done)
    (hmax : N ≤ INT_MAX) (hc0 : 0 ≤ c) (hc : c < N)
    (hinit : s.init_once = true) (hn : s.num_nodes = N) (hcur : s.next_node_to_use = c) :
    ∃ p s', malloc env os s size = some (p, s') ∧ s'.init_once = true ∧
      s'.num_nodes = N ∧ s'.next_node_to_use = (c + 1) % N ∧
      selected_nodes s'.trace = selected_nodes s.trace ++ [c] := by
  obtain ⟨p, s', hm, h1, h2, h3, h4⟩ := malloc_nonzero_returns env os s size hs hre
  have hpo : pthread_once env s = s := by simp [pthread_once, hinit]
  refine ⟨p, s', hm, ?_, ?_, ?_, ?_⟩
  · rw [h1]; simp [malloc_pre, next_node, hpo, hinit]
  · rw [h2]; simp [malloc_pre, next_node, hpo, hn]
  · rw [h3]
    simp only [malloc_pre, next_node, hpo, hn, hcur]
    exact cursor_step N c hmax hc0 hc
  · rw [h4, malloc_pre_trace, selected_nodes_append, hcur]
    rfl

/-- Consecutive calls with nonzero sizes, none of which has a `perror` that
calls the allocator: the calls all return, the nodes they select follow the
cycle from the cursor on, and the cursor advances by the number of calls. -/
theorem malloc_seq_round_robin (env : Env) (N : Int) (hmax : N ≤ INT_MAX) :
    ∀ (calls : List (OsAnswer × Nat)) (s : State) (c : Int),
      0 ≤ c → c < N → s.init_once = true → s.num_nodes = N →
      s.next_node_to_use = c → (∀ call ∈ calls, 0 < call.2) →
      (∀ call ∈ calls, call.1.mbind_ok = false → call.1.perror_calls = Script.done) →
      ∃ s', malloc_seq env calls s = some s' ∧
        selected_nodes s'.trace = selected_nodes s.trace ++
          (List.range calls.length).map (fun (i : Nat) => (c + (i : Int)) % N) ∧
        s'.next_node_to_use = (c + (calls.length : Int)) % N := by
  intro calls
  induction calls with
  | nil =>
    intro s c hc0 hc _ _ hcur _ _
    refine ⟨s, rfl, by simp, ?_⟩
    simp only [List.length_nil, Nat.cast_zero, add_zero]
    rw [hcur, Int.emod_eq_of_lt hc0 hc]
  | cons call rest ih =>
    intro s c hc0 hc hinit hn hcur hsz hre
    have hpos : call.2 ≠ 0 := Nat.pos_iff_ne_zero.mp (hsz call (List.mem_cons_self _ _))
    obtain ⟨p, s1, hm, hi1, hn1, hc1, ht1⟩ :=
      malloc_cursor env call.1 s call.2 N c hpos (hre call (List.mem_cons_self _ _))
        hmax hc0 hc hinit hn hcur
    have hNpos : 0 < N := by omega
    obtain ⟨s', hrun, htr, hnext⟩ := ih s1 ((c + 1) % N)
      (Int.emod_nonneg _ (by omega)) (Int.emod_lt_of_pos _ hNpos) hi1 hn1 hc1
      (fun x hx => hsz x (List.mem_cons_of_mem _ hx))
      (fun x hx => hre x (List.mem_cons_of_mem _ hx))
    refine ⟨s', ?_, ?_, ?_⟩
    · simp only [malloc_seq, hm]
      exact hrun
    · rw [htr, ht1, List.length_cons, List.range_succ_eq_map, List.map_cons, List.map_map,
        List.append_assoc]
      congr 1
      simp only [List.singleton_append, Nat.cast_zero, add_zero, Int.emod_eq_of_lt hc0 hc]
      congr 1
      apply List.map_congr_left
      intro i _
      simp only [Function.comp, Nat.succ_eq_add_one, Nat.cast_add, Nat.cast_one,
        Int.emod_add_emod]
      congr 1
      omega
    · rw [hnext, Int.emod_add_emod, List.length_cons]
      congr 1
      push_cast
      omega

/-- Supporting fact for C1: when no call reaches a `perror` that calls the
allocator (every bind succeeds, or `perror` writes without allocating), the
round-robin order holds.  In an initialised state with node count `N` (an
`int`, so at most `INT_MAX`) and cursor `c` in `[0, N)`, `k` consecutive
`malloc` calls with nonzero sizes all return; the nodes they select are
`(c + 0) mod N, ..., (c + k - 1) mod N` in call order, and the cursor is left
at `(c + k) mod N`. -/
theorem round_robin_without_reentry (env : Env) (N c : Int)
    (calls : List (OsAnswer × Nat)) (s : State) (hmax : N ≤ INT_MAX) (hc0 : 0 ≤ c)
    (hc : c < N) (hinit : s.init_once = true) (hn : s.num_nodes = N)
    (hcur : s.next_node_to_use = c) (hsz : ∀ call ∈ calls, 0 < call.2)
    (hre : ∀ call ∈ calls, call.1.mbind_ok = false →
      call.1.perror_calls = Script.done) :
    ∃ s', malloc_seq env calls s = some s' ∧
      selected_nodes s'.trace = selected_nodes s.trace ++
        (List.range calls.length).map (fun (i : Nat) => (c + (i : Int)) % N) ∧
      s'.next_node_to_use = (c + (calls.length : Int)) % N :=
  malloc_seq_round_robin env N hmax calls s c hc0 hc hinit hn hcur hsz hre

/-- The supporting fact for C1 at two nodes and cursor `0`: five sequential
allocations are assigned the nodes `0, 1, 0, 1, 0`, and the cursor ends at
`1`. -/
theorem round_robin_without_reentry_witness :
    (2 : Int) ≤ INT_MAX ∧ (0 : Int) ≤ 0 ∧ (0 : Int) < 2 ∧
    two_node_start.init_once = true ∧ two_node_start.num_nodes = 2 ∧
    two_node_start.next_node_to_use = 0 ∧ (∀ call ∈ five_calls, 0 < call.2) ∧
    (∀ call ∈ five_calls, call.1.mbind_ok = false →
      call.1.perror_calls = Script.done) ∧
    ∃ s', malloc_seq two_node_env five_calls two_node_start = some s' ∧
      selected_nodes s'.trace = [0, 1, 0, 1, 0] ∧ s'.next_node_to_use = 1 :=
  ⟨by decide, by decide, by decide, rfl, rfl, rfl, by decide, by decide,
    round_robin_without_reentry two_node_env 2 0 five_calls two_node_start (by decide)
      (by decide) (by decide) rfl rfl rfl (by decide) (by decide)⟩

/-- C1 on four nodes from cursor `0`, with three consecutive calls
`malloc(16)` of which the second has its bind fail while the error stream is a
terminal.  The failing call runs `perror("mbind failed")`, which calls
`malloc(472)` and `malloc(1024)` and frees both blocks again; each of the two
nested calls takes a node from the cursor.  So the three calls return, but
they bind to the nodes `0, 1, 0`, not `0, 1, 2`, and they leave the cursor at
`1`, not at `(0 + 3) mod 4 = 3`. -/
theorem round_robin_broken_by_perror :
    ∃ s', malloc_seq four_node_env three_calls four_node_start = some s' ∧
      s'.trace =
        [Event.select 0, Event.mmap 24 (some 0x7f0000003000),
          Event.mbind 0x7f0000003000 24 1 true,
         Event.select 1, Event.mmap 24 (some 0x7f0000002000),
          Event.mbind 0x7f0000002000 24 2 false,
         Event.select 2, Event.mmap 480 (some 0x7f0000001000),
          Event.mbind 0x7f0000001000 480 4 true,
         Event.select 3, Event.mmap 1032 (some 0x7f0000000000),
          Event.mbind 0x7f0000000000 1032 8 true,
         Event.munmap 0x7f0000000000 1032, Event.munmap 0x7f0000001000 480,
         Event.munmap 0x7f0000002000 24,
         Event.select 0, Event.mmap 24 (some 0x7f0000002000),
          Event.mbind 0x7f0000002000 24 1 true] ∧
      s'.next_node_to_use = 1 ∧
      s'.next_node_to_use ≠ (four_node_start.next_node_to_use + 3) % four_node_start.num_nodes ∧
      (∀ call ∈ three_calls, 0 < call.2) :=
  ⟨_, rfl, rfl, rfl, by decide, by decide⟩

/-! ## Safety of one allocation -/

/-- Supporting fact for C2: when `size + 8` does not wrap, the call keeps the
safety contract, and a returned block lies inside the very bytes that were
asked of `mmap`.  For a `perror` that calls the allocator, pages are taken to
be at least as large as a header. -/
theorem malloc_safe_of_fits (env : Env) (os : OsAnswer) (s : State) (size : Nat)
    (hs : 0 < size) (hfit : size + metadata_size < SIZE_MOD)
    (hre : os.perror_calls = Script.done ∨ metadata_size ≤ env.page_size) :
    ∃ res, malloc env os s size = some res ∧ malloc_safe env s size res ∧
      (res.1 ≠ 0 → ∃ r ∈ res.2.mapped, r ∉ s.mapped ∧
        r.start + metadata_size = res.1 ∧ res.1 + size = r.start + r.len) := by
  have hs0 : size ≠ 0 := Nat.pos_iff_ne_zero.mp hs
  have htot : size_add size metadata_size = size + metadata_size :=
    Nat.mod_eq_of_lt hfit
  have h0 : size_add size metadata_size ≠ 0 := by
    rw [htot]; unfold metadata_size; omega
  have hm := malloc_pre_mapped env s
  by_cases hsucc : ∃ a, os.mmap_addr = some a ∧
      placement_ok env.page_size s.mapped a (size_add size metadata_size) ∧
      os.mbind_ok = true
  · obtain ⟨a, ha, hok, hb⟩ := hsucc
    have hP := placement_ok_page_pos hok
    have hle := le_round_up env.page_size (size_add size metadata_size) hP
    have htop := hok.2.2.1
    have hfresh := placement_ok_fresh hok (Nat.pos_of_ne_zero h0)
    have h8 : metadata_size = 8 := rfl
    have hp : ptr_add a metadata_size = a + metadata_size := by
      unfold ptr_add
      apply Nat.mod_eq_of_lt
      omega
    refine ⟨_, malloc_success env os s size a hs0 h0 ha hok hb, ?_, ?_⟩
    · left
      refine ⟨?_, _, List.mem_cons_self _ _, hfresh, ?_, ?_⟩
      · show ptr_add a metadata_size ≠ 0
        omega
      · show a ≤ ptr_add a metadata_size
        omega
      · show ptr_add a metadata_size + size
          ≤ a + round_up env.page_size (size_add size metadata_size)
        omega
    · intro _
      refine ⟨_, List.mem_cons_self _ _, hfresh, ?_, ?_⟩
      · show a + metadata_size = ptr_add a metadata_size
        rw [hp]
      · show ptr_add a metadata_size + size = a + size_add size metadata_size
        omega
  · have hnull : ∃ s', malloc env os s size = some (0, s') ∧ s'.mapped = s.mapped := by
      rcases malloc_null_or_success env os s size hs0 hre with
        ⟨a, _, ha, hok, hb, _⟩ | ⟨s', h, hmapped, _⟩
      · exact absurd ⟨a, ha, hok, hb⟩ hsucc
      · exact ⟨s', h, hmapped⟩
    obtain ⟨s', hm', hmapped⟩ := hnull
    exact ⟨_, hm', Or.inr ⟨rfl, hmapped⟩, fun h => absurd rfl h⟩

/-- C2 at `size = SIZE_MAX`, as the first call of a process, with the kernel
placing the mapping at `0x7f0000001000`: `size + 8` wraps to `7`, so seven
bytes are mapped, the call returns the non-null pointer `0x7f0000001008`, and
the block of `SIZE_MAX` bytes from there on is not inside the one page of that
region: the safety contract is broken. -/
theorem malloc_size_max_breaks_safety :
    ∃ res, malloc two_node_env (os_at 0x7f0000001000) State.initial SIZE_MAX = some res ∧
      res.1 = 0x7f0000001008 ∧
      res.2.mapped = [{ start := 0x7f0000001000, len := 7 }] ∧
      ¬ malloc_safe two_node_env State.initial SIZE_MAX res :=
  ⟨_, rfl, rfl, rfl, by decide⟩

/-! ## Bind failure, and the free of a fresh block -/

/-- C4. Round trip: when `malloc(size)` with `0 < size` returns a non-null
`p`, it mapped the region at `p - 8` of `size + 8` bytes (the sum as `size_t`
computes it).  A `free(p)` in a later state with the same mappings and an
unchanged header reads `size` back from `p - 8`, issues `munmap` with that
start and that length, and leaves the mappings from before the `malloc`. -/
theorem malloc_free_round_trip (env : Env) (os : OsAnswer) (s s1 s2 : State)
    (size p : Nat) (hs : 0 < size) (hsz : size < SIZE_MOD)
    (hm : malloc env os s size = some (p, s1)) (hp : p ≠ 0)
    (hmapped : s2.mapped = s1.mapped)
    (hhdr : ∀ x, ptr_sub p metadata_size ≤ x →
      x < ptr_sub p metadata_size + metadata_size → s2.mem x = s1.mem x) :
    s1.mapped = { start := ptr_sub p metadata_size,
                  len := size_add size metadata_size } :: s.mapped ∧
    load_size_t s2.mem (ptr_sub p metadata_size) = size ∧
    (free env s2 p).trace = s2.trace ++
      [Event.munmap (ptr_sub p metadata_size) (size_add size metadata_size)] ∧
    (free env s2 p).mapped = s.mapped ∧
    (size + metadata_size < SIZE_MOD →
      size_add size metadata_size = size + metadata_size) := by
  have hs0 : size ≠ 0 := Nat.pos_iff_ne_zero.mp hs
  rcases malloc_null_or_block env os s size hs0 with
    ⟨a, h0, ha, hok, hb, hsucc⟩ | ⟨s', hnull⟩
  · rw [hsucc] at hm
    have hpair := Option.some.inj hm
    have hp1 : ptr_add a metadata_size = p := congrArg Prod.fst hpair
    have hs1 := congrArg Prod.snd hpair
    simp only [] at hs1
    have hsub : ptr_sub p metadata_size = a := by
      rw [← hp1]; exact ptr_sub_ptr_add a (placement_ok_lt hok)
    have hmap1 : s1.mapped = { start := a, len := size_add size metadata_size } ::
        s.mapped := by
      rw [← hs1]; show _ :: (malloc_pre env s).mapped = _
      rw [malloc_pre_mapped]
    have hload : load_size_t s2.mem a = size := by
      rw [load_size_t_congr s2.mem s1.mem a (by rw [← hsub]; exact hhdr), ← hs1]
      exact load_store_size_t _ a size hsz
    have hfree := free_newest env s2 p a size s.mapped hp hsub hload h0 hok
      (hmapped.trans hmap1)
    rw [hsub, hfree]
    exact ⟨hmap1, hload, rfl, rfl, fun h => Nat.mod_eq_of_lt h⟩
  · rw [hnull] at hm
    exact absurd (congrArg Prod.fst (Option.some.inj hm)).symm hp

/-- C4 on a two-node platform: `malloc(16)` placed at `0x7f0000001000`, then
`free` of the returned pointer in the state the `malloc` left. -/
theorem malloc_free_round_trip_witness :
    ∃ s1, 0 < 16 ∧ 16 < SIZE_MOD ∧
      malloc two_node_env (os_at 0x7f0000001000) two_node_start 16
        = some (0x7f0000001008, s1) ∧
      0x7f0000001008 ≠ 0 ∧
      s1.mapped = [{ start := 0x7f0000001000, len := 24 }] ∧
      load_size_t s1.mem 0x7f0000001000 = 16 ∧
      (free two_node_env s1 0x7f0000001008).trace
        = s1.trace ++ [Event.munmap 0x7f0000001000 24] ∧
      (free two_node_env s1 0x7f0000001008).mapped = [] :=
  have h := malloc_free_round_trip two_node_env (os_at 0x7f0000001000) two_node_start
    _ _ 16 0x7f0000001008 (by decide) (by decide) rfl (by decide) rfl (fun _ _ _ => rfl)
  ⟨_, by decide, by decide, rfl, by decide, h.1, h.2.1, h.2.2.1, h.2.2.2.1⟩

/-! ## The block invariant -/

/-- C5 on a legal call sequence from the empty heap (`overflow_calls`): the
`realloc` to `SIZE_MAX` bytes maps seven bytes at `0x7f0000001000` and copies
5000 bytes to `0x7f0000001008`, which runs over the header of the live
16-byte block at `0x7f0000002000`.  That block is still live afterwards, its
header reads `0` and not `16`, and the block invariant is broken. -/
theorem block_invariant_broken_by_overflow :
    (∃ h2, Heap.run two_node_env (overflow_calls.take 2) Heap.empty = some h2 ∧
      h2.live = [(0x7f0000002008, 16), (0x7f0000003008, 5000)] ∧
      block_invariant two_node_env h2) ∧
    ∃ h, Heap.run two_node_env overflow_calls Heap.empty = some h ∧
      h.live = [(0x7f0000001008, SIZE_MAX), (0x7f0000002008, 16)] ∧
      h.st.mapped = [{ start := 0x7f0000001000, len := 7 },
                     { start := 0x7f0000002000, len := 24 }] ∧
      load_size_t h.st.mem 0x7f0000002000 = 0 ∧
      ¬ block_invariant two_node_env h :=
  ⟨⟨_, rfl, rfl, by decide⟩, ⟨_, rfl, rfl, rfl, rfl, by decide⟩⟩

/-! ## Content and release on `realloc` -/

/-- C6 on a block of 5000 bytes whose region is at `0x7f0000002000`, resized
to `SIZE_MAX` bytes with the new seven-byte mapping placed one page below:
the inner allocation returns `0x7f0000001008`, the copy of 5000 bytes runs
over the header of the old block, `free` then reads `0` there and unmaps
eight bytes, and the second page of the old region stays mapped. -/
theorem realloc_overflow_keeps_old_region :
    ∃ s1 res,
      malloc two_node_env (os_at 0x7f0000002000) State.initial 5000
        = some (0x7f0000002008, s1) ∧
      s1.mapped = [{ start := 0x7f0000002000, len := 5008 }] ∧
      realloc two_node_env (os_at 0x7f0000001000) s1 0x7f0000002008 SIZE_MAX
        = some res ∧
      res.1 = 0x7f0000001008 ∧
      res.2.trace.getLast? = some (Event.munmap 0x7f0000002000 8) ∧
      res.2.mapped = [{ start := 0x7f0000001000, len := 7 },
                      { start := 0x7f0000003000, len := 4096 }] ∧
      ¬ ∀ r ∈ res.2.mapped,
          r.apart two_node_env.page_size 0x7f0000002000
            (Region.page_end two_node_env.page_size
              { start := 0x7f0000002000, len := 5008 }) :=
  ⟨_, _, rfl, rfl, rfl, rfl, rfl, rfl, by decide⟩

theorem mem_flatMap_trim (P a e : Nat) (l : List Region) (r' : Region)
    (h : r' ∈ l.flatMap (Region.trim P a e)) :
    ∃ r ∈ l, r' ∈ r.trim P a e := by
  rw [List.mem_flatMap] at h
  exact h

/-- Unmapping the pages of a mapped region `old` whose pages are apart from
those of every other mapping: what stays mapped was mapped before and is
apart from the pages of `old`. -/
theorem munmap_region (P : Nat) (l : List Region) (old : Region) (hP : 0 < P)
    (hlen : 0 < old.len)
    (hapart : ∀ r ∈ l, r ≠ old → r.apart P old.start (old.page_end P)) :
    ∀ r' ∈ l.flatMap (Region.trim P old.start (old.start + round_up P old.len)),
      r' ∈ l ∧ r' ≠ old ∧ r'.apart P old.start (old.page_end P) := by
  intro r' hr'
  obtain ⟨r, hr, hmem⟩ := mem_flatMap_trim P _ _ l r' hr'
  by_cases heq : r = old
  · subst heq
    have : Region.trim P r.start (r.start + round_up P r.len) r = [] := by
      have := trim_self P r.start r.len hP hlen
      simpa using this
    rw [this] at hmem
    simp at hmem
  · have hap := hapart r hr heq
    have hap' : r.apart P old.start (old.start + round_up P old.len) := hap
    rw [trim_of_apart P _ _ r hap'] at hmem
    have : r' = r := by simpa using hmem
    subst this
    exact ⟨hr, heq, hap⟩

/-- Supporting fact for C6: when `new_size + 8` does not wrap, a `realloc` of
a live block (region `(a, old_size + 8)` with an intact header, pages apart
from every other mapping) that returns a non-null `q` keeps the first
`min(old_size, new_size)` bytes, writes `new_size` into the header of `q`, and
leaves no mapping on the pages of the old region. -/
theorem realloc_preserves_of_fits (env : Env) (os : OsAnswer) (s s' : State)
    (a old_size new_size q : Nat)
    (hpage : metadata_size ≤ env.page_size)
    (hn : 0 < new_size) (hfit : new_size + metadata_size < SIZE_MOD)
    (hold : old_size + metadata_size < SIZE_MOD)
    (ha0 : a % env.page_size = 0) (ha1 : a + metadata_size < SIZE_MOD)
    (hlive : ({ start := a, len := old_size + metadata_size } : Region) ∈ s.mapped)
    (hapart : ∀ r ∈ s.mapped, r ≠ { start := a, len := old_size + metadata_size } →
      r.apart env.page_size a (a + round_up env.page_size (old_size + metadata_size)))
    (hhdr : load_size_t s.mem a = old_size)
    (hre : realloc env os s (a + metadata_size) new_size = some (q, s'))
    (hq : q ≠ 0) :
    (∀ i, i < min old_size new_size → s'.mem (q + i) = s.mem (a + metadata_size + i)) ∧
    load_size_t s'.mem (ptr_sub q metadata_size) = new_size ∧
    (∀ r ∈ s'.mapped,
      r.apart env.page_size a (a + round_up env.page_size (old_size + metadata_size))) ∧
    ({ start := ptr_sub q metadata_size, len := new_size + metadata_size } : Region)
      ∈ s'.mapped := by
  have h8 : metadata_size = 8 := rfl
  have hP : 0 < env.page_size := by omega
  have hn0 : new_size ≠ 0 := Nat.pos_iff_ne_zero.mp hn
  have hp0 : a + metadata_size ≠ 0 := by omega
  have htot : size_add new_size metadata_size = new_size + metadata_size :=
    Nat.mod_eq_of_lt hfit
  have holdtot : size_add old_size metadata_size = old_size + metadata_size :=
    Nat.mod_eq_of_lt hold
  have hsub : ptr_sub (a + metadata_size) metadata_size = a := by
    unfold ptr_sub
    have : a + metadata_size + SIZE_MOD - metadata_size = a + SIZE_MOD := by omega
    rw [this, Nat.add_mod_right]
    exact Nat.mod_eq_of_lt (by omega)
  have hold_le := le_round_up env.page_size (old_size + metadata_size) hP
  rcases malloc_null_or_success env os s new_size hn0 (Or.inr hpage) with
    ⟨b, h0, _, hok, _, hsucc⟩ | ⟨s2, hnull, _⟩
  · -- the inner allocation mapped the region at `b`
    have hnew_le := le_round_up env.page_size (size_add new_size metadata_size) hP
    have htop := hok.2.2.1
    have hb0 : b % env.page_size = 0 := hok.2.1
    have hpb : ptr_add b metadata_size = b + metadata_size := by
      unfold ptr_add
      exact Nat.mod_eq_of_lt (by omega)
    have hbnz : b + metadata_size ≠ 0 := by omega
    have hnew_apart := hok.2.2.2 _ hlive
    unfold Region.apart Region.page_end at hnew_apart
    simp only [] at hnew_apart
    -- unfold the call
    unfold realloc at hre
    rw [hsucc] at hre
    simp only [hp0, hn0, if_false, hpb, hbnz, hsub, hhdr] at hre
    have hpair := Option.some.inj hre
    have hq1 : b + metadata_size = q := congrArg Prod.fst hpair
    have hs1 := congrArg Prod.snd hpair
    simp only [] at hs1
    clear hre hpair
    -- the memory in which `free` reads the old header
    have hmemS : (malloc_pre env s).mem = s.mem := malloc_pre_mem env s
    have hmapS : (malloc_pre env s).mapped = s.mapped := malloc_pre_mapped env s
    have hload_s : load_size_t s.mem a = old_size := hhdr
    set m1 : Mem := store_size_t (zero_fill (malloc_pre env s).mem b
      (round_up env.page_size (size_add new_size metadata_size))) b new_size with hm1
    have hm1_old : ∀ x, a ≤ x → x < a + round_up env.page_size (old_size + metadata_size) →
        m1 x = s.mem x := by
      intro x hx1 hx2
      rw [hm1]
      unfold store_size_t zero_fill
      have c1 : ¬ (b ≤ x ∧ x < b + 8) := by omega
      have c2 : ¬ (b ≤ x ∧
          x < b + round_up env.page_size (size_add new_size metadata_size)) := by omega
      rw [if_neg c1, if_neg c2, hmemS]
    set copy := (if old_size < new_size then old_size else new_size) with hcopy
    have hcopy_le : copy ≤ new_size := by rw [hcopy]; split <;> omega
    have hcopy_le' : copy ≤ old_size := by rw [hcopy]; split <;> omega
    have hcopy_min : copy = min old_size new_size := by
      rw [hcopy]; split <;> omega
    set m2 : Mem := memcpy m1 (b + metadata_size) (a + metadata_size) copy with hm2
    have hm2_old_hdr : ∀ x, a ≤ x → x < a + metadata_size → m2 x = s.mem x := by
      intro x hx1 hx2
      rw [hm2]
      unfold memcpy
      have c : ¬ (b + metadata_size ≤ x ∧ x < b + metadata_size + copy) := by omega
      rw [if_neg c]
      exact hm1_old x hx1 (by omega)
    have hload2 : load_size_t m2 a = old_size := by
      rw [load_size_t_congr m2 s.mem a hm2_old_hdr]
      exact hhdr
    -- the state after `free`
    have hfree_mem : s'.mem = m2 := by
      rw [← hs1, free_mem]
    have hfree_mapped : s'.mapped =
        (({ start := b, len := size_add new_size metadata_size } : Region) ::
          (malloc_pre env s).mapped).flatMap
          (Region.trim env.page_size a
            (a + round_up env.page_size (old_size + metadata_size))) := by
      rw [← hs1]
      unfold free
      simp only [hp0, if_false, hsub]
      rw [sys_munmap_mapped env _ a _ ha0 (by rw [hload2, holdtot]; omega), hload2, holdtot]
    refine ⟨?_, ?_, ?_, ?_⟩
    · intro i hi
      rw [hfree_mem, ← hq1, hm2]
      unfold memcpy
      have c : b + metadata_size ≤ b + metadata_size + i ∧
          b + metadata_size + i < b + metadata_size + copy := by omega
      rw [if_pos c]
      have : b + metadata_size + i - (b + metadata_size) = i := by omega
      rw [this]
      exact hm1_old _ (by omega) (by omega)
    · rw [hfree_mem, ← hq1]
      have hsubq : ptr_sub (b + metadata_size) metadata_size = b := by
        rw [← hpb]; exact ptr_sub_ptr_add b (placement_ok_lt hok)
      rw [hsubq]
      have : ∀ x, b ≤ x → x < b + metadata_size → m2 x = m1 x := by
        intro x hx1 hx2
        rw [hm2]
        unfold memcpy
        have c : ¬ (b + metadata_size ≤ x ∧ x < b + metadata_size + copy) := by omega
        rw [if_neg c]
      rw [load_size_t_congr m2 m1 b this, hm1]
      exact load_store_size_t _ b new_size (by omega)
    · intro r hr
      rw [hfree_mapped, hmapS] at hr
      have hl : ∀ x ∈ ({ start := b, len := size_add new_size metadata_size } : Region)
            :: s.mapped,
          x ≠ { start := a, len := old_size + metadata_size } →
          x.apart env.page_size a
            (Region.page_end env.page_size { start := a, len := old_size + metadata_size }) := by
        intro x hx hne
        rcases List.mem_cons.mp hx with hx | hx
        · subst hx
          unfold Region.apart Region.page_end
          simp only []
          omega
        · exact hapart x hx hne
      exact (munmap_region env.page_size _ { start := a, len := old_size + metadata_size }
        hP (by simp only []; omega) hl r hr).2.2
    · rw [hfree_mapped, ← hq1]
      have hsubq : ptr_sub (b + metadata_size) metadata_size = b := by
        rw [← hpb]; exact ptr_sub_ptr_add b (placement_ok_lt hok)
      rw [hsubq, List.flatMap_cons, ← htot]
      apply List.mem_append_left
      have hap : Region.apart env.page_size a
          (a + round_up env.page_size (old_size + metadata_size))
          { start := b, len := size_add new_size metadata_size } := by
        unfold Region.apart Region.page_end
        simp only []
        omega
      rw [trim_of_apart _ _ _ _ hap]
      exact List.mem_singleton_self _
  · -- the inner allocation returned null, so `realloc` returns null
    unfold realloc at hre
    rw [hnull] at hre
    simp only [hp0, hn0, if_false, if_true] at hre
    exact absurd (congrArg Prod.fst (Option.some.inj hre)).symm hq

theorem calloc_overflows_iff (nmemb size : Nat) :
    calloc_overflows nmemb size = true ↔ SIZE_MAX < nmemb * size := by
  unfold calloc_overflows
  rw [decide_eq_true_iff]
  constructor
  · rintro ⟨hpos, hlt⟩
    rw [Nat.mul_comm]
    exact (Nat.div_lt_iff_lt_mul hpos).mp hlt
  · intro h
    have hpos : 0 < nmemb := by
      rcases Nat.eq_zero_or_pos nmemb with h0 | h0
      · subst h0; simp at h
      · exact h0
    refine ⟨hpos, (Nat.div_lt_iff_lt_mul hpos).mpr ?_⟩
    rw [Nat.mul_comm]
    exact h

/-- The function `calloc` by cases on the mathematical product. -/
theorem calloc_by_product (env : Env) (os : OsAnswer) (s : State) (nmemb size : Nat) :
    calloc env os s nmemb size =
      if SIZE_MAX < nmemb * size then some (0, s)
      else malloc env os s (nmemb * size) := by
  unfold calloc
  by_cases h : SIZE_MAX < nmemb * size
  · simp [(calloc_overflows_iff nmemb size).mpr h, h]
  · have hb : calloc_overflows nmemb size = false := by
      cases hc : calloc_overflows nmemb size with
      | false => rfl
      | true => exact absurd ((calloc_overflows_iff nmemb size).mp hc) h
    have hmul : size_mul nmemb size = nmemb * size := by
      unfold size_mul
      apply Nat.mod_eq_of_lt
      unfold SIZE_MAX at h
      unfold SIZE_MOD
      omega
    simp [hb, h, hmul]

/-- C8. Overflow rejection in `calloc`: the early return is taken exactly when
the mathematical product `nmemb * size` exceeds `SIZE_MAX`; on the early
return the result is null and the state is untouched (no cursor step, no
`mmap` in the log); otherwise `calloc` is `malloc` of the exact product.  In
particular `calloc(SIZE_MAX, 2)` returns null in an unchanged state. -/
theorem calloc_overflow_rejection (env : Env) (os : OsAnswer) (s : State)
    (nmemb size : Nat) :
    (calloc_overflows nmemb size = true ↔ SIZE_MAX < nmemb * size) ∧
    (calloc env os s nmemb size =
      if SIZE_MAX < nmemb * size then some (0, s)
      else malloc env os s (nmemb * size)) ∧
    calloc env os s SIZE_MAX 2 = some (0, s) := by
  refine ⟨calloc_overflows_iff nmemb size, calloc_by_product env os s nmemb size, ?_⟩
  have h : calloc_overflows SIZE_MAX 2 = true := by decide
  simp [calloc, h]

/-- Supporting fact for C9: when `nmemb * size + 8` does not wrap, `calloc` is
`malloc` of the product, and a returned block consists of `nmemb * size` zero
bytes. -/
theorem calloc_zero_filled_of_fits (env : Env) (os : OsAnswer) (s : State)
    (nmemb size : Nat) (hfit : nmemb * size + metadata_size < SIZE_MOD) :
    calloc env os s nmemb size = malloc env os s (nmemb * size) ∧
    ∀ p s', calloc env os s nmemb size = some (p, s') → p ≠ 0 →
      ∀ i, i < nmemb * size → s'.mem (p + i) = 0 := by
  have h8 : metadata_size = 8 := rfl
  have hno : ¬ SIZE_MAX < nmemb * size := by
    unfold SIZE_MAX
    unfold SIZE_MOD at hfit
    omega
  have hb : calloc_overflows nmemb size = false := by
    cases hc : calloc_overflows nmemb size with
    | false => rfl
    | true => exact absurd ((calloc_overflows_iff nmemb size).mp hc) hno
  have hmul : size_mul nmemb size = nmemb * size :=
    Nat.mod_eq_of_lt (by omega)
  have hcal : calloc env os s nmemb size = malloc env os s (nmemb * size) := by
    simp [calloc, hb, hmul]
  refine ⟨hcal, ?_⟩
  intro p s' hres hp i hi
  rw [hcal] at hres
  have hs0 : nmemb * size ≠ 0 := by omega
  have htot : size_add (nmemb * size) metadata_size = nmemb * size + metadata_size :=
    Nat.mod_eq_of_lt hfit
  rcases malloc_null_or_block env os s (nmemb * size) hs0 with
    ⟨a, h0, _, hok, _, hsucc⟩ | ⟨s2, hnull⟩
  · rw [hsucc] at hres
    have hpair := Option.some.inj hres
    have hp1 : ptr_add a metadata_size = p := congrArg Prod.fst hpair
    have hs1 := congrArg Prod.snd hpair
    simp only [] at hs1
    have hP := placement_ok_page_pos hok
    have hle := le_round_up env.page_size (size_add (nmemb * size) metadata_size) hP
    have htop := hok.2.2.1
    have hpa : p = a + metadata_size := by
      rw [← hp1]
      unfold ptr_add
      exact Nat.mod_eq_of_lt (by omega)
    rw [← hs1]
    show store_size_t (zero_fill _ a _) a (nmemb * size) (p + i) = 0
    unfold store_size_t zero_fill
    have c1 : ¬ (a ≤ p + i ∧ p + i < a + 8) := by omega
    have c2 : a ≤ p + i ∧
        p + i < a + round_up env.page_size (size_add (nmemb * size) metadata_size) := by
      omega
    rw [if_neg c1, if_pos c2]
  · rw [hnull] at hres
    exact absurd (congrArg Prod.fst (Option.some.inj hres)).symm hp

/-- C9 at `calloc(1, SIZE_MAX)`, called while a 16-byte block lives at
`0x7f0000002008`, with the new mapping placed one page below it: the product
does not overflow, `calloc` returns the non-null `0x7f0000001008` with seven
bytes mapped, and byte `4088` of the returned block is the first header byte
of the neighbour, which is `16` and not zero. -/
theorem calloc_size_max_not_zero_filled :
    ∃ s1 res,
      malloc two_node_env (os_at 0x7f0000002000) State.initial 16
        = some (0x7f0000002008, s1) ∧
      calloc_overflows 1 SIZE_MAX = false ∧
      calloc two_node_env (os_at 0x7f0000001000) s1 1 SIZE_MAX = some res ∧
      res.1 = 0x7f0000001008 ∧
      res.2.mapped = [{ start := 0x7f0000001000, len := 7 },
                      { start := 0x7f0000002000, len := 24 }] ∧
      4088 < 1 * SIZE_MAX ∧ res.2.mem (res.1 + 4088) = 16 ∧
      ¬ ∀ i, i < 1 * SIZE_MAX → res.2.mem (res.1 + i) = 0 :=
  ⟨_, _, rfl, rfl, rfl, rfl, rfl, by decide, rfl,
    fun h => absurd (h 4088 (by decide)) (by decide)⟩

/-! ## Null arguments -/

/-- C10. Null-argument semantics: `free(NULL)` returns the state it was given;
`realloc(NULL, size)` is `malloc(size)`, result and state; and for a non-null
`p`, `realloc(p, 0)` returns null in the state `free(p)` produces. -/
theorem null_argument_semantics (env : Env) (os : OsAnswer) (s : State)
    (p size : Nat) (hp : p ≠ 0) :
    free env s 0 = s ∧
    realloc env os s 0 size = malloc env os s size ∧
    realloc env os s p 0 = some (0, free env s p) := by
  refine ⟨?_, ?_, ?_⟩
  · simp [free]
  · simp [realloc]
  · simp [realloc, hp]

/-- C10 on a two-node platform, with the live pointer `0x7f0000002008`. -/
theorem null_argument_semantics_witness :
    0x7f0000002008 ≠ 0 ∧
    free two_node_env two_node_start 0 = two_node_start ∧
    realloc two_node_env (os_at 0x7f0000001000) two_node_start 0 16
      = malloc two_node_env (os_at 0x7f0000001000) two_node_start 16 ∧
    realloc two_node_env (os_at 0x7f0000001000) two_node_start 0x7f0000002008 0
      = some (0, free two_node_env two_node_start 0x7f0000002008) :=
  ⟨by decide,
    null_argument_semantics two_node_env (os_at 0x7f0000001000) two_node_start
      0x7f0000002008 16 (by decide)⟩

/-! ## The block invariant when no request wraps -/

theorem region_header_in_pages (P : Nat) (r : Region) (hpage : metadata_size ≤ P)
    (hlen : 0 < r.len) : r.start + metadata_size ≤ r.page_end P := by
  have hP : 0 < P := by unfold metadata_size at hpage; omega
  have hdvd : P ∣ round_up P r.len := Dvd.intro_left _ rfl
  have hge := Nat.le_of_dvd (round_up_pos P r.len hP hlen) hdvd
  unfold Region.page_end
  omega

theorem block_region_of_fits (b : Nat × Nat) (h1 : b.2 + metadata_size < SIZE_MOD)
    (h2 : metadata_size ≤ b.1) (h3 : b.1 < SIZE_MOD) :
    block_region b = { start := b.1 - metadata_size, len := b.2 + metadata_size } := by
  unfold block_region
  have e1 : ptr_sub b.1 metadata_size = b.1 - metadata_size := by
    unfold ptr_sub
    have : b.1 + SIZE_MOD - metadata_size = (b.1 - metadata_size) + SIZE_MOD := by omega
    rw [this, Nat.add_mod_right]
    exact Nat.mod_eq_of_lt (by omega)
  have e2 : size_add b.2 metadata_size = b.2 + metadata_size := Nat.mod_eq_of_lt h1
  rw [e1, e2]

/-- The invariant only reads the mappings, the live blocks and the header
bytes of the live blocks. -/
theorem heap_inv_of_same (env : Env) (h h' : Heap) (hinv : heap_inv env h)
    (hmapped : h'.st.mapped = h.st.mapped) (hlive : h'.live = h.live)
    (hmem : ∀ b ∈ h.live, ∀ x, ptr_sub b.1 metadata_size ≤ x →
      x < ptr_sub b.1 metadata_size + metadata_size → h'.st.mem x = h.st.mem x) :
    heap_inv env h' := by
  obtain ⟨hm, hb, hd⟩ := hinv
  refine ⟨hmapped ▸ hm, ?_, hlive ▸ hd⟩
  intro b hbl
  rw [hlive] at hbl
  obtain ⟨h1, h2, h3, hreg, hhdr⟩ := hb b hbl
  refine ⟨h1, h2, h3, ?_, ?_⟩
  · rw [hmapped]; exact hreg
  · rw [load_size_t_congr h'.st.mem h.st.mem _ (hmem b hbl)]; exact hhdr

/-- Mapping a fresh region and writing the header of a new block keeps the
invariant. -/
theorem heap_inv_alloc (env : Env) (h : Heap) (s' : State) (a size : Nat)
    (hpage : metadata_size ≤ env.page_size) (hinv : heap_inv env h)
    (hfit : size + metadata_size < SIZE_MOD)
    (hok : placement_ok env.page_size h.st.mapped a (size + metadata_size))
    (hmapped : s'.mapped = { start := a, len := size + metadata_size } :: h.st.mapped)
    (hhdr : load_size_t s'.mem a = size)
    (hmem : ∀ r ∈ h.st.mapped, ∀ x, r.start ≤ x → x < r.page_end env.page_size →
      s'.mem x = h.st.mem x) :
    heap_inv env { st := s', live := (a + metadata_size, size) :: h.live } := by
  have h8 : metadata_size = 8 := rfl
  obtain ⟨⟨hreg, hap⟩, hb, hd⟩ := hinv
  have hP := placement_ok_page_pos hok
  have hRpos := round_up_pos env.page_size (size + metadata_size) hP (by omega)
  have hRle := le_round_up env.page_size (size + metadata_size) hP
  have htop := hok.2.2.1
  have hnew : block_region (a + metadata_size, size)
      = { start := a, len := size + metadata_size } := by
    rw [block_region_of_fits _ hfit (by simp only []; omega) (by simp only []; omega)]
    simp
  refine ⟨⟨?_, ?_⟩, ?_, ?_⟩
  · intro r hr
    rw [hmapped] at hr
    rcases List.mem_cons.mp hr with hr | hr
    · subst hr
      exact ⟨by simp only []; omega, hok.2.1, htop⟩
    · exact hreg r hr
  · intro r hr r' hr' hne
    rw [hmapped] at hr hr'
    rcases List.mem_cons.mp hr with hr | hr <;> rcases List.mem_cons.mp hr' with hr' | hr'
    · subst hr; subst hr'; exact absurd rfl hne
    · subst hr; exact hok.2.2.2 r' hr'
    · subst hr'
      have := hok.2.2.2 r hr
      unfold Region.apart Region.page_end at this ⊢
      simp only [] at this ⊢
      omega
    · exact hap r hr r' hr' hne
  · intro b hbl
    rcases List.mem_cons.mp hbl with hbl | hbl
    · subst hbl
      refine ⟨hfit, by simp only []; omega, by simp only []; omega, ?_, ?_⟩
      · show block_region _ ∈ s'.mapped
        rw [hnew, hmapped]; exact List.mem_cons_self _ _
      · show load_size_t s'.mem (ptr_sub (a + metadata_size) metadata_size) = size
        have : ptr_sub (a + metadata_size) metadata_size = a := by
          have := congrArg Region.start hnew
          exact this
        rw [this]; exact hhdr
    · obtain ⟨h1, h2, h3, hreg', hhdr'⟩ := hb b hbl
      refine ⟨h1, h2, h3, ?_, ?_⟩
      · show block_region b ∈ s'.mapped
        rw [hmapped]; exact List.mem_cons_of_mem _ hreg'
      · show load_size_t s'.mem (ptr_sub b.1 metadata_size) = b.2
        have hlen := (hreg _ hreg').1
        have hin := region_header_in_pages env.page_size (block_region b) hpage hlen
        have hst : (block_region b).start = ptr_sub b.1 metadata_size := rfl
        rw [load_size_t_congr s'.mem h.st.mem (ptr_sub b.1 metadata_size)
          (fun x hx1 hx2 => hmem _ hreg' x (by rw [hst]; exact hx1) (by omega))]
        exact hhdr'
  · rw [List.pairwise_cons]
    refine ⟨?_, hd⟩
    intro b hbl heq
    obtain ⟨h1, h2, h3, hreg', _⟩ := hb b hbl
    have hrb := block_region_of_fits b h1 h2 h3
    rw [hrb] at hreg'
    have hapart := hok.2.2.2 _ hreg'
    have hlen := (hreg _ hreg').1
    have hpos := round_up_pos env.page_size _ hP hlen
    unfold Region.apart Region.page_end at hapart
    simp only [] at hapart hpos heq
    omega

theorem mem_flatMap_trim_of_apart (P a e : Nat) (l : List Region) (r : Region)
    (hr : r ∈ l) (hap : r.apart P a e) : r ∈ l.flatMap (Region.trim P a e) := by
  rw [List.mem_flatMap]
  exact ⟨r, hr, by rw [trim_of_apart P a e r hap]; exact List.mem_singleton_self r⟩

theorem is_live_iff (h : Heap) (p : Nat) :
    h.is_live p = true ↔ ∃ b ∈ h.live, b.1 = p := by
  unfold Heap.is_live
  simp [List.any_eq_true]

theorem mem_without (h : Heap) (p : Nat) (c : Nat × Nat) :
    c ∈ h.without p ↔ c ∈ h.live ∧ c.1 ≠ p := by
  unfold Heap.without
  simp [List.mem_filter]

/-- What `free` does to a live block of a heap in order: it unmaps the pages
of the block's region and changes no byte. -/
theorem free_live (env : Env) (h : Heap) (b : Nat × Nat) (hinv : heap_inv env h)
    (hb : b ∈ h.live) :
    (free env h.st b.1).mem = h.st.mem ∧
    (free env h.st b.1).mapped = h.st.mapped.flatMap
      (Region.trim env.page_size (block_region b).start
        ((block_region b).start + round_up env.page_size (block_region b).len)) := by
  have h8 : metadata_size = 8 := rfl
  obtain ⟨⟨hreg, _⟩, hbl, _⟩ := hinv
  obtain ⟨h1, h2, h3, hmem, hhdr⟩ := hbl b hb
  obtain ⟨hlen, hal, _⟩ := hreg _ hmem
  refine ⟨free_mem env h.st b.1, ?_⟩
  have hp0 : b.1 ≠ 0 := by omega
  unfold free
  simp only [hp0, if_false, hhdr]
  exact sys_munmap_mapped env h.st _ _ hal (Nat.pos_iff_ne_zero.mp hlen)

/-- Releasing a live block keeps the invariant. -/
theorem heap_inv_release (env : Env) (h : Heap) (s' : State) (b : Nat × Nat)
    (hpage : metadata_size ≤ env.page_size) (hinv : heap_inv env h) (hb : b ∈ h.live)
    (hmem : s'.mem = h.st.mem)
    (hmapped : s'.mapped = h.st.mapped.flatMap
      (Region.trim env.page_size (block_region b).start
        ((block_region b).start + round_up env.page_size (block_region b).len))) :
    heap_inv env { st := s', live := h.without b.1 } := by
  have h8 : metadata_size = 8 := rfl
  have hinv' := hinv
  obtain ⟨⟨hreg, hap⟩, hbl, hd⟩ := hinv
  obtain ⟨h1, h2, h3, hbmem, hhdr⟩ := hbl b hb
  obtain ⟨hlen, hal, _⟩ := hreg _ hbmem
  have hP : 0 < env.page_size := by omega
  have hsub := munmap_region env.page_size h.st.mapped (block_region b) hP hlen
    (fun r hr hne => hap _ hbmem r hr hne)
  refine ⟨⟨?_, ?_⟩, ?_, ?_⟩
  · intro r hr
    rw [hmapped] at hr
    exact hreg r (hsub r hr).1
  · intro r hr r' hr' hne
    rw [hmapped] at hr hr'
    exact hap r (hsub r hr).1 r' (hsub r' hr').1 hne
  · intro c hc
    obtain ⟨hcl, hcne⟩ := (mem_without h b.1 c).mp hc
    obtain ⟨c1, c2, c3, hcmem, hchdr⟩ := hbl c hcl
    refine ⟨c1, c2, c3, ?_, ?_⟩
    · show block_region c ∈ s'.mapped
      rw [hmapped]
      apply mem_flatMap_trim_of_apart _ _ _ _ _ hcmem
      apply hap _ hbmem _ hcmem
      intro heq
      have e1 := block_region_of_fits b h1 h2 h3
      have e2 := block_region_of_fits c c1 c2 c3
      rw [e1, e2] at heq
      have := congrArg Region.start heq
      simp only [] at this
      omega
    · show load_size_t s'.mem _ = c.2
      rw [hmem]; exact hchdr
  · show (h.without b.1).Pairwise _
    unfold Heap.without
    exact List.Pairwise.filter _ hd

theorem with_block_null (live : List (Nat × Nat)) (size : Nat) :
    Heap.with_block live 0 size = live := by
  simp [Heap.with_block]

theorem with_block_cons (live : List (Nat × Nat)) (p size : Nat) (hp : p ≠ 0) :
    Heap.with_block live p size = (p, size) :: live := by
  simp [Heap.with_block, hp]

/-- A header lies in the pages of its region, so a state change that keeps
the bytes of all mapped pages keeps the invariant. -/
theorem heap_inv_of_pages_kept (env : Env) (h : Heap) (s' : State)
    (hpage : metadata_size ≤ env.page_size) (hinv : heap_inv env h)
    (hmapped : s'.mapped = h.st.mapped)
    (hmem : ∀ r ∈ h.st.mapped, ∀ x, r.start ≤ x → x < r.page_end env.page_size →
      s'.mem x = h.st.mem x) :
    heap_inv env { st := s', live := h.live } := by
  refine heap_inv_of_same env h { st := s', live := h.live } hinv hmapped rfl ?_
  intro b hb x hx1 hx2
  obtain ⟨_, _, _, hreg, _⟩ := hinv.2.1 b hb
  have hlen := (hinv.1.1 _ hreg).1
  have hin := region_header_in_pages env.page_size (block_region b) hpage hlen
  have hst : (block_region b).start = ptr_sub b.1 metadata_size := rfl
  exact hmem _ hreg x (by rw [hst]; exact hx1) (by omega)

/-- One `malloc` whose request fits keeps the invariant. -/
theorem heap_inv_malloc (env : Env) (os : OsAnswer) (h : Heap) (size p : Nat)
    (s' : State) (hpage : metadata_size ≤ env.page_size) (hinv : heap_inv env h)
    (hfit : size + metadata_size < SIZE_MOD)
    (hm : malloc env os h.st size = some (p, s')) :
    heap_inv env { st := s', live := Heap.with_block h.live p size } := by
  have h8 : metadata_size = 8 := rfl
  by_cases hs : size = 0
  · subst hs
    rw [malloc_size_zero] at hm
    have hpair := Option.some.inj hm
    have hp : (0 : Nat) = p := congrArg Prod.fst hpair
    have hs' : pthread_once env h.st = s' := congrArg Prod.snd hpair
    subst hp
    rw [with_block_null]
    have hf := pthread_once_frame env h.st
    rw [hs'] at hf
    exact heap_inv_of_pages_kept env h s' hpage hinv hf.1
      (fun _ _ x _ _ => congrFun hf.2.1 x)
  · have htot : size_add size metadata_size = size + metadata_size :=
      Nat.mod_eq_of_lt hfit
    rcases malloc_null_or_success env os h.st size hs (Or.inr hpage) with
      ⟨a, h0, _, hok, _, hsucc⟩ | ⟨s2, hnull, hmapped, hmem⟩
    · rw [hsucc] at hm
      have hpair := Option.some.inj hm
      have hp : ptr_add a metadata_size = p := congrArg Prod.fst hpair
      have hs' := congrArg Prod.snd hpair
      simp only [] at hs'
      have hP := placement_ok_page_pos hok
      have htop := hok.2.2.1
      have hRle := le_round_up env.page_size (size_add size metadata_size) hP
      have hdvd : env.page_size ∣ round_up env.page_size (size_add size metadata_size) :=
        Dvd.intro_left _ rfl
      have hRge := Nat.le_of_dvd
        (round_up_pos env.page_size _ hP (Nat.pos_of_ne_zero h0)) hdvd
      have hpa : p = a + metadata_size := by
        rw [← hp]
        unfold ptr_add
        exact Nat.mod_eq_of_lt (by omega)
      have hp0 : p ≠ 0 := by omega
      rw [with_block_cons _ _ _ hp0, hpa]
      rw [htot] at hok
      apply heap_inv_alloc env h s' a size hpage hinv hfit hok
      · rw [← hs']
        show _ :: (malloc_pre env h.st).mapped = _
        rw [malloc_pre_mapped, htot]
      · rw [← hs']
        exact load_store_size_t _ a size (by omega)
      · intro r hr x hx1 hx2
        rw [← hs']
        show store_size_t (zero_fill (malloc_pre env h.st).mem a _) a size x = _
        have hap := hok.2.2.2 r hr
        unfold Region.apart at hap
        rw [htot] at hRge
        unfold store_size_t zero_fill
        have c1 : ¬ (a ≤ x ∧ x < a + 8) := by omega
        have c2 : ¬ (a ≤ x ∧
            x < a + round_up env.page_size (size_add size metadata_size)) := by
          rw [htot]; omega
        rw [if_neg c1, if_neg c2, malloc_pre_mem]
    · rw [hnull] at hm
      have hpair := Option.some.inj hm
      have hp : (0 : Nat) = p := congrArg Prod.fst hpair
      have hs' : s2 = s' := congrArg Prod.snd hpair
      subst hp
      subst hs'
      rw [with_block_null]
      exact heap_inv_of_pages_kept env h s2 hpage hinv hmapped hmem

/-- A `realloc` of a live block to a nonzero size that fits keeps the
invariant: on failure the old block stays live, on success the new block
replaces it. -/
theorem heap_inv_realloc (env : Env) (os : OsAnswer) (h : Heap) (b : Nat × Nat)
    (new_size q : Nat) (s' : State)
    (hpage : metadata_size ≤ env.page_size) (hinv : heap_inv env h)
    (hfit : new_size + metadata_size < SIZE_MOD) (hn : new_size ≠ 0)
    (hb : b ∈ h.live)
    (hre : realloc env os h.st b.1 new_size = some (q, s')) :
    heap_inv env
      { st := s',
        live := if q = 0 then h.live else (q, new_size) :: h.without b.1 } := by
  have h8 : metadata_size = 8 := rfl
  have hP : 0 < env.page_size := by omega
  obtain ⟨hb1, hb2, hb3, hbreg, hbhdr⟩ := hinv.2.1 b hb
  have hp0 : b.1 ≠ 0 := by omega
  unfold realloc at hre
  simp only [hp0, hn, if_false] at hre
  cases hm : malloc env os h.st new_size with
  | none => rw [hm] at hre; simp at hre
  | some res =>
    obtain ⟨q1, s1⟩ := res
    rw [hm] at hre
    simp only [] at hre
    have hinv1 := heap_inv_malloc env os h new_size q1 s1 hpage hinv hfit hm
    by_cases hq1 : q1 = 0
    · simp only [hq1, if_true] at hre
      have hpair := Option.some.inj hre
      have e1 : (0 : Nat) = q := congrArg Prod.fst hpair
      have e2 : s1 = s' := congrArg Prod.snd hpair
      subst e1; subst e2
      rw [hq1, with_block_null] at hinv1
      simpa using hinv1
    · simp only [hq1, if_false] at hre
      have hpair := Option.some.inj hre
      have e1 : q1 = q := congrArg Prod.fst hpair
      have e2 := congrArg Prod.snd hpair
      simp only [] at e2
      subst e1
      rw [with_block_cons _ _ _ hq1] at hinv1
      simp only [hq1, if_false]
      -- the copy stays inside the user bytes of the new block
      obtain ⟨hn1, hn2, hn3, hnreg, _⟩ := hinv1.2.1 (q1, new_size) (List.mem_cons_self _ _)
      have hnr := block_region_of_fits (q1, new_size) hn1 hn2 hn3
      simp only [] at hn1 hn2 hn3
      have hdist := (List.pairwise_cons.mp hinv1.2.2).1
      set copy := (if load_size_t h.st.mem (ptr_sub b.1 metadata_size) < new_size
        then load_size_t h.st.mem (ptr_sub b.1 metadata_size) else new_size) with hcopy
      have hcopy_le : copy ≤ new_size := by rw [hcopy]; split <;> omega
      set s2 : State := { s1 with mem := memcpy s1.mem q1 b.1 copy } with hs2
      set H2 : Heap := { st := s2, live := (q1, new_size) :: h.live } with hH2
      have hinv2 : heap_inv env H2 := by
        refine heap_inv_of_same env { st := s1, live := (q1, new_size) :: h.live } H2
          hinv1 rfl rfl ?_
        intro c hc x hx1 hx2
        show memcpy s1.mem q1 b.1 copy x = s1.mem x
        unfold memcpy
        have hout : ¬ (q1 ≤ x ∧ x < q1 + copy) := by
          rcases List.mem_cons.mp hc with hc | hc
          · subst hc
            have := congrArg Region.start hnr
            have e : ptr_sub q1 metadata_size = q1 - metadata_size := this
            simp only [] at hx1 hx2
            omega
          · obtain ⟨c1, c2, c3, hcreg, _⟩ := hinv1.2.1 c (List.mem_cons_of_mem _ hc)
            have hcr := block_region_of_fits c c1 c2 c3
            have hne : block_region c ≠ block_region (q1, new_size) := by
              intro heq
              rw [hcr, hnr] at heq
              have := congrArg Region.start heq
              simp only [] at this
              have := hdist c hc
              simp only [] at this
              omega
            have hap := hinv1.1.2 _ hnreg _ hcreg hne
            have hclen := (hinv1.1.1 _ hcreg).1
            have hin := region_header_in_pages env.page_size (block_region c) hpage hclen
            have hle := le_round_up env.page_size (new_size + metadata_size) hP
            have hst : (block_region c).start = ptr_sub c.1 metadata_size := rfl
            rw [hnr] at hap
            unfold Region.apart Region.page_end at hap
            unfold Region.page_end at hin
            simp only [] at hap
            omega
        rw [if_neg hout]
      have hb' : b ∈ H2.live := List.mem_cons_of_mem _ hb
      have hfl := free_live env H2 b hinv2 hb'
      have hrel := heap_inv_release env H2 (free env s2 b.1) b hpage hinv2 hb' hfl.1 hfl.2
      have hwo : H2.without b.1 = (q1, new_size) :: h.without b.1 := by
        unfold Heap.without
        have : q1 ≠ b.1 := hdist b hb
        simp [hH2, List.filter_cons, this]
      rw [hwo, e2] at hrel
      exact hrel

theorem heap_inv_empty (env : Env) : heap_inv env Heap.empty := by
  refine ⟨⟨?_, ?_⟩, ?_, ?_⟩
  · intro r hr; simp [Heap.empty, State.initial] at hr
  · intro r hr; simp [Heap.empty, State.initial] at hr
  · intro b hb; simp [Heap.empty] at hb
  · simp [Heap.empty]

/-- Every legal call whose request fits keeps the invariant. -/
theorem heap_inv_step (env : Env) (h h' : Heap) (c : Call)
    (hpage : metadata_size ≤ env.page_size) (hinv : heap_inv env h) (hfit : c.fits)
    (hstep : h.step env c = some h') : heap_inv env h' := by
  cases c with
  | malloc os size =>
    simp only [Heap.step] at hstep
    cases hm : malloc env os h.st size with
    | none => rw [hm] at hstep; simp at hstep
    | some res =>
      obtain ⟨p, s'⟩ := res
      rw [hm] at hstep
      rw [← Option.some.inj hstep]
      exact heap_inv_malloc env os h size p s' hpage hinv hfit hm
  | calloc os nmemb size =>
    simp only [Heap.step] at hstep
    cases hm : calloc env os h.st nmemb size with
    | none => rw [hm] at hstep; simp at hstep
    | some res =>
      obtain ⟨p, s'⟩ := res
      rw [hm] at hstep
      rw [← Option.some.inj hstep]
      have hc := calloc_by_product env os h.st nmemb size
      rw [hm] at hc
      by_cases hov : SIZE_MAX < nmemb * size
      · rw [if_pos hov] at hc
        have hpair := Option.some.inj hc
        have e1 : p = 0 := congrArg Prod.fst hpair
        have e2 : s' = h.st := congrArg Prod.snd hpair
        subst e1; subst e2
        rw [with_block_null]
        exact hinv
      · rw [if_neg hov] at hc
        have hfit' : nmemb * size + metadata_size < SIZE_MOD := by
          rcases hfit with hf | hf
          · exact absurd hf hov
          · exact hf
        have hmul : size_mul nmemb size = nmemb * size :=
          Nat.mod_eq_of_lt (by omega)
        rw [hmul]
        exact heap_inv_malloc env os h (nmemb * size) p s' hpage hinv hfit' hc.symm
  | free user_ptr =>
    simp only [Heap.step] at hstep
    by_cases hp : user_ptr = 0
    · simp only [hp, if_true] at hstep
      rw [← Option.some.inj hstep]
      have : free env h.st 0 = h.st := by simp [free]
      rw [this]
      exact hinv
    · simp only [hp, if_false] at hstep
      cases hl : h.is_live user_ptr with
      | false => rw [hl] at hstep; simp at hstep
      | true =>
        rw [hl] at hstep
        simp only [if_true] at hstep
        rw [← Option.some.inj hstep]
        obtain ⟨b, hb, hb1⟩ := (is_live_iff h user_ptr).mp hl
        subst hb1
        have hfl := free_live env h b hinv hb
        exact heap_inv_release env h (free env h.st b.1) b hpage hinv hb hfl.1 hfl.2
  | realloc os user_ptr new_size =>
    simp only [Heap.step] at hstep
    by_cases hp : user_ptr = 0
    · subst hp
      simp only [ne_eq, not_true_eq_false, false_and, if_false, if_true] at hstep
      cases hm : realloc env os h.st 0 new_size with
      | none => rw [hm] at hstep; simp at hstep
      | some res =>
        obtain ⟨q, s'⟩ := res
        rw [hm] at hstep
        rw [← Option.some.inj hstep]
        have hre : realloc env os h.st 0 new_size = malloc env os h.st new_size := by
          simp [realloc]
        rw [hre] at hm
        exact heap_inv_malloc env os h new_size q s' hpage hinv hfit hm
    · cases hl : h.is_live user_ptr with
      | false => simp [hp, hl] at hstep
      | true =>
        obtain ⟨b, hb, hb1⟩ := (is_live_iff h user_ptr).mp hl
        subst hb1
        have hlive_cond : ¬ (b.1 ≠ 0 ∧ h.is_live b.1 = false) := by simp [hl]
        simp only [hlive_cond, if_false, hp] at hstep
        cases hm : realloc env os h.st b.1 new_size with
        | none => rw [hm] at hstep; simp at hstep
        | some res =>
          obtain ⟨q, s'⟩ := res
          rw [hm] at hstep
          simp only [] at hstep
          by_cases hn : new_size = 0
          · subst hn
            simp only [if_true] at hstep
            rw [← Option.some.inj hstep]
            have hre : realloc env os h.st b.1 0 = some (0, free env h.st b.1) := by
              simp [realloc, hp]
            rw [hre] at hm
            have e2 : free env h.st b.1 = s' := congrArg Prod.snd (Option.some.inj hm)
            rw [← e2]
            have hfl := free_live env h b hinv hb
            exact heap_inv_release env h (free env h.st b.1) b hpage hinv hb hfl.1 hfl.2
          · simp only [hn, if_false] at hstep
            have hr := heap_inv_realloc env os h b new_size q s' hpage hinv hfit hn hb hm
            by_cases hq : q = 0
            · simp only [hq, if_true] at hstep hr
              rw [← Option.some.inj hstep]
              exact hr
            · simp only [hq, if_false] at hstep hr
              rw [← Option.some.inj hstep]
              exact hr

theorem heap_inv_run (env : Env) (hpage : metadata_size ≤ env.page_size) :
    ∀ (calls : List Call) (h h' : Heap), heap_inv env h → (∀ c ∈ calls, c.fits) →
      Heap.run env calls h = some h' → heap_inv env h' := by
  intro calls
  induction calls with
  | nil =>
    intro h h' hinv _ hrun
    simp only [Heap.run] at hrun
    rw [← Option.some.inj hrun]
    exact hinv
  | cons c rest ih =>
    intro h h' hinv hfit hrun
    simp only [Heap.run] at hrun
    cases hs : h.step env c with
    | none => rw [hs] at hrun; simp at hrun
    | some h1 =>
      rw [hs] at hrun
      exact ih h1 h' (heap_inv_step env h h1 c hpage hinv (hfit c (List.mem_cons_self _ _)) hs)
        (fun x hx => hfit x (List.mem_cons_of_mem _ hx)) hrun

theorem block_invariant_of_heap_inv (env : Env) (h : Heap) (hinv : heap_inv env h) :
    block_invariant env h := by
  have h8 : metadata_size = 8 := rfl
  obtain ⟨⟨_, hap⟩, hb, hd⟩ := hinv
  refine ⟨fun b hbl => (hb b hbl).2.2.2, ?_⟩
  refine List.Pairwise.imp_of_mem ?_ hd
  intro b c hbl hcl hne
  obtain ⟨b1, b2, b3, hbreg, _⟩ := hb b hbl
  obtain ⟨c1, c2, c3, hcreg, _⟩ := hb c hcl
  apply hap _ hbreg _ hcreg
  intro heq
  rw [block_region_of_fits b b1 b2 b3, block_region_of_fits c c1 c2 c3] at heq
  have := congrArg Region.start heq
  simp only [] at this
  omega

/-- Supporting fact for C5: from the empty heap, every sequence of legal calls
in which no request wraps when the header is added leads to a heap with the
block invariant, in which every live block owns a mapped region of exactly
`size + 8` bytes that starts eight bytes before its pointer. -/
theorem block_invariant_of_fits (env : Env) (hpage : metadata_size ≤ env.page_size)
    (calls : List Call) (h : Heap) (hfit : ∀ c ∈ calls, c.fits)
    (hrun : Heap.run env calls Heap.empty = some h) :
    block_invariant env h ∧
    ∀ b ∈ h.live,
      ({ start := b.1 - metadata_size, len := b.2 + metadata_size } : Region)
        ∈ h.st.mapped := by
  have hinv := heap_inv_run env hpage calls Heap.empty h (heap_inv_empty env) hfit hrun
  refine ⟨block_invariant_of_heap_inv env h hinv, ?_⟩
  intro b hb
  obtain ⟨b1, b2, b3, hreg, _⟩ := hinv.2.1 b hb
  rw [← block_region_of_fits b b1 b2 b3]
  exact hreg

/-! ## Zero-size requests and initialisation -/

/-- C11. The call `malloc(0)` returns null in every state, whatever the kernel
would answer; the mappings after the call are those from before it, no byte
changes, and nothing is logged: no `mmap` is attempted. -/
theorem malloc_zero_maps_nothing (env : Env) (os : OsAnswer) (s : State) :
    ∃ s', malloc env os s 0 = some (0, s') ∧ s'.mapped = s.mapped ∧
      s'.mem = s.mem ∧ s'.trace = s.trace :=
  ⟨pthread_once env s, malloc_size_zero env os s, (pthread_once_frame env s).1,
    (pthread_once_frame env s).2.1, (pthread_once_frame env s).2.2.1⟩

theorem int_wrap_of_int (z : Int) (h1 : -(2 : Int) ^ 31 ≤ z) (h2 : z ≤ INT_MAX) :
    int_wrap z = z := by
  unfold int_wrap
  unfold INT_MAX at h2
  omega

theorem int_wrap_range (z : Int) : -(2 : Int) ^ 31 ≤ int_wrap z ∧ int_wrap z ≤ INT_MAX := by
  unfold int_wrap INT_MAX
  omega

/-- The node count after `init_allocator` is a positive `int`. -/
theorem init_allocator_num_nodes_range (env : Env) (s : State) :
    1 ≤ (init_allocator env s).num_nodes ∧ (init_allocator env s).num_nodes ≤ INT_MAX := by
  unfold init_allocator
  by_cases h1 : env.numa_available = -1
  · simp only [h1, if_true]
    unfold INT_MAX
    omega
  · simp only [h1, if_false]
    by_cases h2 : int_wrap (env.numa_max_node + 1) ≤ 0
    · simp only [h2, if_true]
      unfold INT_MAX
      omega
    · simp only [h2, if_false]
      exact ⟨by omega, (int_wrap_range _).2⟩

/-- C12 at a reported maximum node index of `INT_MAX`, with NUMA available:
the `int` addition `numa_max_node() + 1` wraps to a negative value, the safety
check replaces it, and the node count is `1`, not the maximum node index plus
one. -/
theorem init_allocator_at_int_max :
    (init_allocator int_max_env State.initial).num_nodes = 1 ∧
    spec_node_count int_max_env = 2147483648 ∧
    (init_allocator int_max_env State.initial).num_nodes ≠ spec_node_count int_max_env := by
  decide

/-- C12, amended. For every topology answer, `init_allocator` returns with a
node count of at least `1`, and an unavailable NUMA gives a node count of `1`
whatever the reported maximum node index is.  When the maximum node index `m`
is an `int` below `INT_MAX`, the node count is `1` when NUMA is unavailable or
`m ≤ 0`, and `m + 1` otherwise. -/
theorem init_allocator_result (env : Env) (s : State) :
    1 ≤ (init_allocator env s).num_nodes ∧
    (env.numa_available = -1 → (init_allocator env s).num_nodes = 1) ∧
    (-(2 : Int) ^ 31 ≤ env.numa_max_node → env.numa_max_node < INT_MAX →
      (init_allocator env s).num_nodes = spec_node_count env) := by
  refine ⟨(init_allocator_num_nodes_range env s).1, ?_, ?_⟩
  · intro h1
    unfold init_allocator
    simp [h1]
  · intro hlo hhi
    have hw : int_wrap (env.numa_max_node + 1) = env.numa_max_node + 1 :=
      int_wrap_of_int _ (by omega) (by omega)
    unfold init_allocator spec_node_count
    by_cases h1 : env.numa_available = -1
    · simp [h1]
    · simp only [h1, if_false, false_or, hw]
      by_cases h3 : env.numa_max_node + 1 ≤ 0
      · have h2 : env.numa_max_node ≤ 0 := by omega
        simp only [h3, h2, if_true]
      · simp only [h3, if_false]
        by_cases h2 : env.numa_max_node ≤ 0
        · simp only [h2, if_true]
          omega
        · simp only [h2, if_false]

/-- C12 on the two-node platform (maximum node index `1`), where the node
count is `2`, and on a platform without NUMA support that reports `INT_MAX`,
where the node count is `1`. -/
theorem init_allocator_result_witness :
    -(2 : Int) ^ 31 ≤ two_node_env.numa_max_node ∧ two_node_env.numa_max_node < INT_MAX ∧
    (init_allocator two_node_env State.initial).num_nodes = 2 ∧
    no_numa_env.numa_available = -1 ∧ no_numa_env.numa_max_node = INT_MAX ∧
    (init_allocator no_numa_env State.initial).num_nodes = 1 :=
  ⟨by decide, by decide,
    (init_allocator_result two_node_env State.initial).2.2 (by decide) (by decide),
    rfl, rfl, (init_allocator_result no_numa_env State.initial).2.1 rfl⟩

/-! ## The allocator context -/

/-- One `malloc` in a state with the context invariant: the call returns, the
invariant holds afterwards, and the node count is unchanged. -/
theorem malloc_ctx (env : Env) (os : OsAnswer) (s : State) (size : Nat)
    (h : ctx_inv s) :
    ∃ p s', malloc env os s size = some (p, s') ∧ ctx_inv s' ∧
      s'.num_nodes = s.num_nodes := by
  obtain ⟨p, s', hm, _, hctx⟩ := malloc_returns_in_context env os s size
  exact ⟨p, s', hm, (hctx h).1, (hctx h).2⟩

/-- One `malloc` in a state with the context invariant, whose `perror`, if it
runs, makes no call of the allocator: the cursor has moved by one step for a
nonzero size and not at all for size zero. -/
theorem malloc_ctx_cursor (env : Env) (os : OsAnswer) (s : State) (size : Nat)
    (h : ctx_inv s) (hre : os.mbind_ok = false → os.perror_calls = Script.done) :
    ∃ p s', malloc env os s size = some (p, s') ∧ ctx_inv s' ∧
      s'.num_nodes = s.num_nodes ∧
      s'.next_node_to_use =
        (s.next_node_to_use + (if 0 < size then 1 else 0)) % s.num_nodes := by
  obtain ⟨hinit, hN1, hNmax, hc0, hc⟩ := h
  by_cases hs : size = 0
  · subst hs
    refine ⟨0, s, ?_, ⟨hinit, hN1, hNmax, hc0, hc⟩, rfl, ?_⟩
    · rw [malloc_size_zero, pthread_once_of_init env s hinit]
    · simp only [Nat.lt_irrefl, if_false, add_zero]
      exact (Int.emod_eq_of_lt hc0 hc).symm
  · obtain ⟨p, s', hm, hi', hn', hc', _⟩ :=
      malloc_cursor env os s size s.num_nodes s.next_node_to_use hs hre hNmax hc0 hc hinit
        rfl rfl
    have hpos : 0 < size := Nat.pos_of_ne_zero hs
    refine ⟨p, s', hm, ⟨hi', ?_, ?_, ?_, ?_⟩, hn', ?_⟩
    · rw [hn']; exact hN1
    · rw [hn']; exact hNmax
    · rw [hc']; exact Int.emod_nonneg _ (by omega)
    · rw [hc', hn']; exact Int.emod_lt_of_pos _ (by omega)
    · rw [hc']; simp only [hpos, if_true]

theorem calloc_ctx (env : Env) (os : OsAnswer) (s : State) (nmemb size : Nat)
    (h : ctx_inv s) :
    ∃ p s', calloc env os s nmemb size = some (p, s') ∧ ctx_inv s' ∧
      s'.num_nodes = s.num_nodes := by
  unfold calloc
  by_cases hov : calloc_overflows nmemb size = true
  · simp only [hov, if_true]
    exact ⟨0, s, rfl, h, rfl⟩
  · simp only [hov]
    obtain ⟨p, s', hm, hi, hn⟩ := malloc_ctx env os s (size_mul nmemb size) h
    exact ⟨p, s', hm, hi, hn⟩

theorem realloc_ctx (env : Env) (os : OsAnswer) (s : State) (user_ptr new_size : Nat)
    (h : ctx_inv s) :
    ∃ q s', realloc env os s user_ptr new_size = some (q, s') ∧ ctx_inv s' ∧
      s'.num_nodes = s.num_nodes := by
  unfold realloc
  by_cases hp : user_ptr = 0
  · simp only [hp, if_true]
    obtain ⟨p, s', hm, hi, hn⟩ := malloc_ctx env os s new_size h
    exact ⟨p, s', hm, hi, hn⟩
  · by_cases hn0 : new_size = 0
    · simp only [hp, hn0, if_true, if_false]
      have hf := free_ctx env s user_ptr
      exact ⟨0, _, rfl, ctx_inv_of_same s _ h hf.1 hf.2.1 hf.2.2, hf.2.1⟩
    · obtain ⟨q, s1, hm, hi, hn⟩ := malloc_ctx env os s new_size h
      simp only [hp, hn0, if_false, hm]
      by_cases hq : q = 0
      · simp only [hq, if_true]
        exact ⟨0, s1, rfl, hi, hn⟩
      · simp only [hq, if_false]
        refine ⟨q, _, rfl, ?_, ?_⟩
        · exact ctx_inv_of_same s1 _ hi (free_ctx env _ user_ptr).1
            (free_ctx env _ user_ptr).2.1 (free_ctx env _ user_ptr).2.2
        · rw [(free_ctx env _ user_ptr).2.1]
          exact hn

/-- The context invariant holds as soon as the one-time initialisation of a
fresh process has run, on every platform. -/
theorem ctx_inv_after_init (env : Env) : ctx_inv (pthread_once env State.initial) := by
  have hr := init_allocator_num_nodes_range env State.initial
  have hf := init_allocator_frame env State.initial
  have e : pthread_once env State.initial
      = { init_allocator env State.initial with init_once := true } := by
    simp [pthread_once, State.initial]
  rw [e]
  refine ⟨rfl, hr.1, hr.2, ?_, ?_⟩
  · show 0 ≤ (init_allocator env State.initial).next_node_to_use
    rw [hf.2.2.2]; exact le_refl _
  · show (init_allocator env State.initial).next_node_to_use
      < (init_allocator env State.initial).num_nodes
    rw [hf.2.2.2]
    have : State.initial.next_node_to_use = 0 := rfl
    rw [this]
    omega

theorem pthread_once_idem (env : Env) (s : State) :
    pthread_once env (pthread_once env s) = pthread_once env s := by
  have h : (pthread_once env s).init_once = true := by
    unfold pthread_once
    by_cases hi : s.init_once = true
    · simp [hi]
    · simp [hi]
  exact pthread_once_of_init env _ h

/-- The first thing `malloc` does is the one-time initialisation, so a call
in a state is the same call in the initialised state. -/
theorem malloc_after_pthread_once (env : Env) (os : OsAnswer) (s : State) (size : Nat) :
    malloc env os (pthread_once env s) size = malloc env os s size := by
  unfold malloc malloc_body
  rw [pthread_once_idem]

/-- The first `malloc` of a process, on every platform, with a `perror` that,
if it runs, makes no call of the allocator: the call runs the initialisation,
returns, and leaves a state with the context invariant in which the cursor is
`1` modulo the node count for a nonzero size and `0` for size zero. -/
theorem first_malloc_ctx (env : Env) (os : OsAnswer) (size : Nat)
    (hre : os.mbind_ok = false → os.perror_calls = Script.done) :
    ∃ r, malloc env os State.initial size = some r ∧ ctx_inv r.2 ∧
      r.2.next_node_to_use = (if 0 < size then 1 else 0) % r.2.num_nodes := by
  obtain ⟨p, s', hm, hi, hn, hc⟩ :=
    malloc_ctx_cursor env os (pthread_once env State.initial) size (ctx_inv_after_init env)
      hre
  rw [malloc_after_pthread_once] at hm
  refine ⟨(p, s'), hm, hi, ?_⟩
  rw [hc, hn, (pthread_once_frame env State.initial).2.2.2]
  show ((0 : Int) + _) % _ = _
  rw [Int.zero_add]

/-- C13. Context invariant: once the initialisation of a process has run, the
node count is at least `1` and the cursor is in `[0, node count)`; and from
every initialised state with these bounds (the node count being an `int`),
each of `malloc`, `free`, `calloc` and `realloc` returns, whatever its
arguments and whatever the kernel answers, in a state with the same bounds
and the same node count. -/
theorem context_invariant (env : Env) (os : OsAnswer) (s : State)
    (p nmemb size : Nat) (h : ctx_inv s) :
    ctx_inv (pthread_once env State.initial) ∧
    (∃ r, malloc env os s size = some r ∧ ctx_inv r.2 ∧
      r.2.num_nodes = s.num_nodes) ∧
    (ctx_inv (free env s p) ∧ (free env s p).num_nodes = s.num_nodes) ∧
    (∃ r, calloc env os s nmemb size = some r ∧ ctx_inv r.2 ∧
      r.2.num_nodes = s.num_nodes) ∧
    (∃ r, realloc env os s p size = some r ∧ ctx_inv r.2 ∧
      r.2.num_nodes = s.num_nodes) := by
  refine ⟨ctx_inv_after_init env, ?_, ?_, ?_, ?_⟩
  · obtain ⟨q, s', hm, hi, hn⟩ := malloc_ctx env os s size h
    exact ⟨(q, s'), hm, hi, hn⟩
  · have hf := free_ctx env s p
    exact ⟨ctx_inv_of_same s _ h hf.1 hf.2.1 hf.2.2, hf.2.1⟩
  · obtain ⟨q, s', hm, hi, hn⟩ := calloc_ctx env os s nmemb size h
    exact ⟨(q, s'), hm, hi, hn⟩
  · obtain ⟨q, s', hm, hi, hn⟩ := realloc_ctx env os s p size h
    exact ⟨(q, s'), hm, hi, hn⟩

/-- C13 on the two-node platform, in the state right after initialisation,
with a kernel that refuses the mapping. -/
theorem context_invariant_witness :
    ctx_inv two_node_start ∧
    (∃ r, malloc two_node_env { mmap_addr := none, mbind_ok := true } two_node_start 16
        = some r ∧ ctx_inv r.2 ∧ r.2.num_nodes = 2) ∧
    (ctx_inv (free two_node_env two_node_start 0x7f0000002008) ∧
      (free two_node_env two_node_start 0x7f0000002008).num_nodes = 2) :=
  have h := context_invariant two_node_env { mmap_addr := none, mbind_ok := true }
    two_node_start 0x7f0000002008 1 16 (by decide)
  ⟨by decide, h.2.1, h.2.2.1⟩

/-- Supporting fact for C17: a call whose `perror`, if it runs, makes no call
of the allocator moves the cursor as the frame says.  In a state with the
context invariant, the `malloc` call returns with the cursor moved by `1`
modulo the node count when `size > 0` and by `0` when `size = 0`;
`malloc(0)` leaves the cursor as it was; a call with `size > 0` whose `mmap`
is refused or whose `mbind` fails returns null with the cursor moved by one;
and `free` never changes the cursor. -/
theorem cursor_frame_without_reentry (env : Env) (os : OsAnswer) (s : State)
    (size p : Nat) (h : ctx_inv s)
    (hre : os.mbind_ok = false → os.perror_calls = Script.done) :
    (∃ r, malloc env os s size = some r ∧
      r.2.next_node_to_use =
        (s.next_node_to_use + (if 0 < size then 1 else 0)) % s.num_nodes) ∧
    (∃ s', malloc env os s 0 = some (0, s') ∧
      s'.next_node_to_use = s.next_node_to_use) ∧
    (0 < size → (os.mmap_addr = none ∨ os.mbind_ok = false) →
      ∃ s', malloc env os s size = some (0, s') ∧
        s'.next_node_to_use = (s.next_node_to_use + 1) % s.num_nodes) ∧
    (free env s p).next_node_to_use = s.next_node_to_use := by
  refine ⟨?_, ?_, ?_, (free_ctx env s p).2.2⟩
  · obtain ⟨q, s', hm, _, _, hc⟩ := malloc_ctx_cursor env os s size h hre
    exact ⟨(q, s'), hm, hc⟩
  · exact ⟨pthread_once env s, malloc_size_zero env os s, (pthread_once_frame env s).2.2.2⟩
  · intro hpos hfail
    obtain ⟨q, s', hm, _, _, hc⟩ := malloc_ctx_cursor env os s size h hre
    simp only [hpos, if_true] at hc
    rcases malloc_null_or_block env os s size (Nat.pos_iff_ne_zero.mp hpos) with
      ⟨a, _, ha, _, hb, _⟩ | ⟨s2, hnull⟩
    · rcases hfail with hf | hf
      · rw [hf] at ha; exact absurd ha (by simp)
      · rw [hf] at hb; exact absurd hb (by simp)
    · rw [hnull] at hm
      have e : s2 = s' := congrArg Prod.snd (Option.some.inj hm)
      subst e
      exact ⟨s2, hnull, hc⟩

/-- The supporting fact for C17 on the two-node platform, cursor `0`: a
16-byte request whose `mbind` fails, with a `perror` that makes no call of the
allocator, returns null and leaves the cursor at `1`. -/
theorem cursor_frame_without_reentry_witness :
    ctx_inv two_node_start ∧ 0 < 16 ∧
    ∃ s', malloc two_node_env { mmap_addr := some 0x7f0000008000, mbind_ok := false }
        two_node_start 16 = some (0, s') ∧ s'.next_node_to_use = 1 :=
  ⟨by decide, by decide,
    (cursor_frame_without_reentry two_node_env
      { mmap_addr := some 0x7f0000008000, mbind_ok := false }
      two_node_start 16 0 (by decide) (fun _ => rfl)).2.2.1 (by decide) (Or.inr rfl)⟩

/-- C17 on four nodes at cursor `0`: one call `malloc(16)` whose bind fails
while the error stream is a terminal.  The call returns null, and its
`perror("mbind failed")` has called `malloc(472)` and `malloc(1024)`, each of
which took a node from the cursor: the nodes `0`, `1` and `2` were handed out,
and the cursor is left at `3`, not at `(0 + 1) mod 4 = 1`.  The mappings are
those from before the call. -/
theorem cursor_moved_by_three_on_bind_failure :
    ctx_inv four_node_start ∧ four_node_start.next_node_to_use = 0 ∧
    four_node_start.num_nodes = 4 ∧
    ∃ s', malloc four_node_env (bind_fails_at 0x7f0000002000) four_node_start 16
        = some (0, s') ∧
      selected_nodes s'.trace = [0, 1, 2] ∧
      s'.next_node_to_use = 3 ∧
      s'.next_node_to_use
        ≠ (four_node_start.next_node_to_use + 1) % four_node_start.num_nodes ∧
      s'.mapped = four_node_start.mapped :=
  ⟨by decide, rfl, rfl, _, rfl, rfl, rfl, by decide, rfl⟩

/-! ## The node mask -/

theorem shl_one_of_lt_64 (t : Int) (h0 : 0 ≤ t) (h1 : t < 64) :
    shl_one t = 2 ^ t.toNat := by
  unfold shl_one SIZE_MOD
  apply Nat.mod_eq_of_lt
  apply Nat.pow_lt_pow_right (by decide)
  omega

/-- Supporting fact for C14: for a target node in `0 .. 63` the mask
`1UL << target_node` denotes exactly that node. -/
theorem nodemask_single_of_lt_64 (t : Int) (h0 : 0 ≤ t) (h1 : t < 64) :
    mask_is_single (shl_one t) t := by
  intro n
  rw [shl_one_of_lt_64 t h0 h1]
  unfold mask_has_node
  rw [Nat.testBit_two_pow, Bool.and_eq_true, decide_eq_true_iff, decide_eq_true_iff]
  constructor
  · rintro ⟨_, h⟩
    omega
  · intro h
    omega

/-- No mask of 64 bits denotes the node set `{64}`. -/
theorem no_mask_for_node_64 (mask : Nat) : ¬ mask_is_single mask 64 := by
  intro h
  have h64 := (h 64).mpr rfl
  simp [mask_has_node] at h64

/-- Supporting fact for C14: with at most 64 nodes, a `malloc` whose `mmap`
succeeds passes to `mbind` a mask that denotes exactly the node the selector
handed out. -/
theorem malloc_nodemask_single (env : Env) (os : OsAnswer) (s : State) (size a : Nat)
    (h : ctx_inv s) (hN : s.num_nodes ≤ 64) (hs : size ≠ 0)
    (h0 : size_add size metadata_size ≠ 0) (ha : os.mmap_addr = some a)
    (hok : placement_ok env.page_size s.mapped a (size_add size metadata_size)) :
    ∃ p s', malloc env os s size = some (p, s') ∧
      Event.mbind a (size_add size metadata_size) (shl_one s.next_node_to_use)
        os.mbind_ok ∈ s'.trace ∧
      mask_is_single (shl_one s.next_node_to_use) s.next_node_to_use := by
  obtain ⟨hinit, _, _, hc0, hc⟩ := h
  have hsingle := nodemask_single_of_lt_64 s.next_node_to_use hc0 (by omega)
  have hpo := pthread_once_of_init env s hinit
  cases hb : os.mbind_ok with
  | false =>
    obtain ⟨s4, h4, ⟨evs, htr⟩, _⟩ :=
      perror_returns_in_context env os.perror_calls (bind_failed_state env s size a)
    refine ⟨0, sys_munmap env s4 a (size_add size metadata_size), ?_, ?_, hsingle⟩
    · rw [malloc_bind_failed env os s size a hs h0 ha hok hb, h4]
    · rw [sys_munmap_trace, htr]
      show _ ∈ (malloc_pre env s).trace ++ _ ++ _ ++ evs ++ _
      rw [hpo]
      simp
  | true =>
    refine ⟨_, _, malloc_success env os s size a hs h0 ha hok hb, ?_, hsingle⟩
    rw [hpo]
    simp

set_option maxRecDepth 20000 in
/-- C14 on a platform with 65 nodes: after 64 requests the cursor is `64`,
the next `malloc` selects node `64` and passes the mask `1UL << 64` to
`mbind`, which in 64 bits is `0` here, the empty node set; and no mask of 64
bits denotes the node set `{64}`. -/
theorem nodemask_at_node_64 :
    ∃ s res, malloc_seq env_65 (refused_calls 64) State.initial = some s ∧
      s.num_nodes = 65 ∧ s.next_node_to_use = 64 ∧
      malloc env_65 { mmap_addr := some 0x7f0000001000, mbind_ok := false } s 16
        = some res ∧
      res.2.trace.drop 128 =
        [Event.select 64, Event.mmap 24 (some 0x7f0000001000),
         Event.mbind 0x7f0000001000 24 0 false, Event.munmap 0x7f0000001000 24] ∧
      ¬ mask_is_single 0 64 ∧ ∀ mask, ¬ mask_is_single mask 64 :=
  ⟨_, _, rfl, rfl, rfl, rfl, rfl, no_mask_for_node_64 0, no_mask_for_node_64⟩

/-! ## The warm-up loop -/

theorem page_count_mul_ge (P size : Nat) (hP : 0 < P) : size ≤ page_count P size * P :=
  le_round_up P size hP

theorem page_count_mul_lt (P size : Nat) (hP : 0 < P) :
    page_count P size * P < size + P := by
  have := Nat.div_mul_le_self (size + P - 1) P
  unfold page_count
  omega

/-- The stores of the loop from index `k * P` on, when `r` page starts are
still below `size`: the loop returns after `r + 1` tests of its condition, and
it has stored to the offsets `k * P, (k + 1) * P, ...`, `r` of them, in this
order. -/
theorem touch_loop_written (P ptr size : Nat) (hP : 0 < P) (hfit : size + P ≤ SIZE_MOD) :
    ∀ (r k : Nat) (m : Mem) (w : List Nat), k + r = page_count P size →
      ∃ m', touch_loop P ptr size (r + 1) (k * P) m w
        = some (m', w ++ (List.range' k r).map (fun j => j * P)) := by
  intro r
  induction r with
  | zero =>
    intro k m w hk
    have hge := page_count_mul_ge P size hP
    have : ¬ k * P < size := by
      rw [Nat.add_zero] at hk
      rw [hk]; omega
    rw [touch_loop]
    exact ⟨m, by simp [this]⟩
  | succ n ih =>
    intro k m w hk
    have hlt := page_count_mul_lt P size hP
    have hk1 : (k + 1) * P ≤ page_count P size * P :=
      Nat.mul_le_mul_right P (by omega)
    have hexp : (k + 1) * P = k * P + P := Nat.succ_mul k P
    have hi : k * P < size := by omega
    have hstep : size_add (k * P) P = (k + 1) * P := by
      unfold size_add
      rw [hexp]
      exact Nat.mod_eq_of_lt (by omega)
    obtain ⟨m', hm'⟩ := ih (k + 1) (store_byte m (ptr_add ptr (k * P)) 0) (w ++ [k * P])
      (by omega)
    refine ⟨m', ?_⟩
    rw [touch_loop]
    simp only [hi, if_true, hstep]
    rw [hm', List.range'_succ, List.map_cons, List.append_assoc]
    rfl

/-- The memory the loop leaves: the bytes at the offsets it stored to are zero,
and every other byte is as it was. -/
theorem touch_loop_mem (P ptr size : Nat) :
    ∀ (fuel i : Nat) (m : Mem) (w : List Nat) (r : Mem × List Nat),
      touch_loop P ptr size fuel i m w = some r →
      ∃ l, r.2 = w ++ l ∧ (∀ o ∈ l, r.1 (ptr_add ptr o) = 0) ∧
        ∀ x, (∀ o ∈ l, x ≠ ptr_add ptr o) → r.1 x = m x := by
  intro fuel
  induction fuel with
  | zero => intro i m w r h; simp [touch_loop] at h
  | succ n ih =>
    intro i m w r h
    rw [touch_loop] at h
    by_cases hi : i < size
    · simp only [hi, if_true] at h
      obtain ⟨l, h1, h2, h3⟩ := ih _ _ _ _ h
      refine ⟨i :: l, ?_, ?_, ?_⟩
      · rw [h1, List.append_assoc]
        rfl
      · intro o ho
        rcases List.mem_cons.mp ho with rfl | ho'
        · by_cases hex : ∃ o' ∈ l, ptr_add ptr o = ptr_add ptr o'
          · obtain ⟨o', ho', he⟩ := hex
            rw [he]
            exact h2 o' ho'
          · rw [h3 _ (fun o' ho' he => hex ⟨o', ho', he⟩)]
            simp [store_byte]
        · exact h2 o ho'
      · intro x hx
        rw [h3 x (fun o ho => hx o (List.mem_cons_of_mem _ ho))]
        have hne : x ≠ ptr_add ptr i := hx i (List.mem_cons_self _ _)
        simp [store_byte, hne]
    · simp only [hi, if_false] at h
      have := Option.some.inj h
      subst this
      exact ⟨[], (List.append_nil _).symm, fun _ ho => absurd ho (List.not_mem_nil _),
        fun _ _ => rfl⟩

theorem mem_spec_touch_offsets (P size o : Nat) (hP : 0 < P) :
    o ∈ spec_touch_offsets P size ↔ P ∣ o ∧ o < size := by
  have hlt := page_count_mul_lt P size hP
  have hge := page_count_mul_ge P size hP
  unfold spec_touch_offsets
  rw [List.mem_map]
  constructor
  · rintro ⟨k, hk, rfl⟩
    rw [List.mem_range] at hk
    have hk1 : (k + 1) * P ≤ page_count P size * P := Nat.mul_le_mul_right P hk
    have hexp : (k + 1) * P = k * P + P := Nat.succ_mul k P
    exact ⟨Dvd.intro_left k rfl, by omega⟩
  · rintro ⟨⟨q, rfl⟩, hlt2⟩
    refine ⟨q, ?_, Nat.mul_comm q P⟩
    rw [List.mem_range]
    apply Nat.lt_of_mul_lt_mul_left (a := P)
    rw [Nat.mul_comm P (page_count P size)]
    omega

/-- C16. Warm-up coverage: for a page size `P > 0` and a length `size` with
`size ≤ 2 ^ 64 - P`, `first_touch_pages` returns after `ceil(size / P) + 1`
tests of its loop condition (and with any larger allowance).  The offsets it
stored to, in the order of the stores, are `0, P, 2P, ...` below `size`:
`ceil(size / P)` of them, ascending, all multiples of `P` below `size` and
nothing else.  In the memory it leaves, the byte at each of these offsets from
`ptr` is zero, and every other byte is as it was.  Every offset `j < size` is
in the page of an offset that was stored to. -/
theorem warm_up_coverage (env : Env) (ptr size : Nat) (m : Mem)
    (hP : 0 < env.page_size) (hfit : size + env.page_size ≤ SIZE_MOD) :
    (∃ m', (∀ k, first_touch_pages env (page_count env.page_size size + 1 + k) m ptr size
        = some (m', spec_touch_offsets env.page_size size)) ∧
      (∀ o ∈ spec_touch_offsets env.page_size size, m' (ptr_add ptr o) = 0) ∧
      (∀ x, (∀ o ∈ spec_touch_offsets env.page_size size, x ≠ ptr_add ptr o) →
        m' x = m x)) ∧
    (spec_touch_offsets env.page_size size).length = page_count env.page_size size ∧
    (spec_touch_offsets env.page_size size).Pairwise (fun a b => a < b) ∧
    (∀ o, o ∈ spec_touch_offsets env.page_size size ↔ env.page_size ∣ o ∧ o < size) ∧
    (∀ j, j < size →
      ∃ o ∈ spec_touch_offsets env.page_size size, o / env.page_size = j / env.page_size) := by
  refine ⟨?_, ?_, ?_, fun o => mem_spec_touch_offsets env.page_size size o hP, ?_⟩
  · obtain ⟨m', hm'⟩ := touch_loop_written env.page_size ptr size hP hfit
      (page_count env.page_size size) 0 m [] (by omega)
    rw [Nat.zero_mul, List.nil_append, ← List.range_eq_range'] at hm'
    obtain ⟨l, h1, h2, h3⟩ := touch_loop_mem env.page_size ptr size _ _ _ _ _ hm'
    rw [List.nil_append] at h1
    have hl : l = spec_touch_offsets env.page_size size := h1.symm
    subst hl
    exact ⟨m', fun k => touch_loop_more_fuel env.page_size ptr size _ k 0 m [] _ hm', h2, h3⟩
  · simp [spec_touch_offsets]
  · unfold spec_touch_offsets
    rw [List.pairwise_map]
    refine List.Pairwise.imp ?_ (List.pairwise_lt_range _)
    intro a b hab
    exact Nat.mul_lt_mul_of_pos_right hab hP
  · intro j hj
    refine ⟨j / env.page_size * env.page_size, ?_, Nat.mul_div_cancel _ hP⟩
    rw [mem_spec_touch_offsets env.page_size size _ hP]
    have := Nat.div_mul_le_self j env.page_size
    exact ⟨Dvd.intro_left _ rfl, by omega⟩

/-- C16 for a region of 5000 bytes at `0x7f0000003000`, pages of 4096 bytes,
and a memory in which every byte is `1`: the loop stores to the offsets `0` and
`4096`, in this order; afterwards the bytes at `0x7f0000003000` and
`0x7f0000004000` are zero, and the bytes next to them are still `1`. -/
theorem warm_up_coverage_witness :
    0 < two_node_env.page_size ∧ 5000 + two_node_env.page_size ≤ SIZE_MOD ∧
    ∃ m', first_touch_pages two_node_env 3 (fun _ => 1) 0x7f0000003000 5000
        = some (m', [0, 4096]) ∧
      m' 0x7f0000003000 = 0 ∧ m' 0x7f0000004000 = 0 ∧
      m' 0x7f0000003001 = 1 ∧ m' 0x7f0000004001 = 1 ∧ m' 0x7f0000005000 = 1 :=
  match (warm_up_coverage two_node_env 0x7f0000003000 5000 (fun _ => 1)
    (by decide) (by decide)).1 with
  | ⟨m', h1, h2, h3⟩ =>
    ⟨by decide, by decide, m', h1 0, h2 0 (by decide), h2 4096 (by decide),
      h3 0x7f0000003001 (by decide), h3 0x7f0000004001 (by decide),
      h3 0x7f0000005000 (by decide)⟩

theorem multiple_add_le (P i top : Nat) (hi : P ∣ i) (htop : P ∣ top)
    (hlt : i < top) : i + P ≤ top := by
  obtain ⟨k, rfl⟩ := hi
  obtain ⟨q, rfl⟩ := htop
  have hkq : k < q := Nat.lt_of_mul_lt_mul_left hlt
  have : P * (k + 1) ≤ P * q := Nat.mul_le_mul_left P hkq
  rw [Nat.mul_succ] at this
  exact this

/-- When the page size divides `2 ^ 64` and `size` is above `2 ^ 64 - P`, the
loop test succeeds at every index the loop can reach, so no amount of fuel
lets the loop return. -/
theorem touch_loop_runs_on (P ptr size : Nat) (hdvd : P ∣ SIZE_MOD)
    (hbig : SIZE_MOD < size + P) :
    ∀ (fuel i : Nat) (m : Mem) (w : List Nat), P ∣ i → i < SIZE_MOD →
      touch_loop P ptr size fuel i m w = none := by
  intro fuel
  induction fuel with
  | zero => intro i m w _ _; rfl
  | succ n ih =>
    intro i m w hi hlt
    have hle := multiple_add_le P i SIZE_MOD hi hdvd hlt
    have hcond : i < size := by omega
    rw [touch_loop]
    simp only [hcond, if_true]
    apply ih
    · unfold size_add
      rw [Nat.dvd_iff_mod_eq_zero, Nat.mod_mod_of_dvd _ hdvd, ← Nat.dvd_iff_mod_eq_zero]
      exact Nat.dvd_add hi (Nat.dvd_refl P)
    · unfold size_add
      exact Nat.mod_lt _ (by unfold SIZE_MOD; decide)

/-- C18. Termination of the warm-up loop, for a page size `P > 0` that
divides `2 ^ 64` and a `size_t` value `size`: when `size ≤ 2 ^ 64 - P` the
loop returns (within `ceil(size / P) + 1` tests of its condition); when
`size > 2 ^ 64 - P` the index `2 ^ 64 - P` still passes the test, the next
index wraps to `0`, and the loop returns for no amount of fuel. -/
theorem warm_up_termination (env : Env) (ptr size : Nat) (m : Mem)
    (hP : 0 < env.page_size) (hdvd : env.page_size ∣ SIZE_MOD) (hsz : size < SIZE_MOD) :
    (size + env.page_size ≤ SIZE_MOD →
      ∃ m', first_touch_pages env (page_count env.page_size size + 1) m ptr size
        = some m') ∧
    (SIZE_MOD < size + env.page_size →
      SIZE_MOD - env.page_size < size ∧
      size_add (SIZE_MOD - env.page_size) env.page_size = 0 ∧
      ∀ fuel, first_touch_pages env fuel m ptr size = none) := by
  have _ := hsz
  constructor
  · intro hfit
    obtain ⟨m', hm'⟩ := touch_loop_returns env.page_size ptr size hfit
      (page_count env.page_size size) 0 m []
      (by have := page_count_mul_ge env.page_size size hP; omega)
    exact ⟨m', hm'⟩
  · intro hbig
    have hle : env.page_size ≤ SIZE_MOD :=
      Nat.le_of_dvd (by unfold SIZE_MOD; decide) hdvd
    refine ⟨by omega, ?_, ?_⟩
    · unfold size_add
      rw [Nat.sub_add_cancel hle]
      exact Nat.mod_self _
    · intro fuel
      exact touch_loop_runs_on env.page_size ptr size hdvd hbig fuel 0 m []
        (Nat.dvd_zero _) (by unfold SIZE_MOD; decide)

/-- C18 for pages of 4096 bytes: a region of 5000 bytes is warmed up within
three tests of the loop condition, and for a length of `SIZE_MAX` bytes the
loop never returns. -/
theorem warm_up_termination_witness :
    0 < two_node_env.page_size ∧ two_node_env.page_size ∣ SIZE_MOD ∧
    5000 < SIZE_MOD ∧ SIZE_MAX < SIZE_MOD ∧
    (∃ m', first_touch_pages two_node_env 3 State.initial.mem 0x7f0000003000 5000
      = some m') ∧
    (∀ fuel, first_touch_pages two_node_env fuel State.initial.mem 0x7f0000003000
      SIZE_MAX = none) :=
  ⟨by decide, by decide, by decide, by decide,
    (warm_up_termination two_node_env 0x7f0000003000 5000 State.initial.mem
      (by decide) (by decide) (by decide)).1 (by decide),
    ((warm_up_termination two_node_env 0x7f0000003000 SIZE_MAX State.initial.mem
      (by decide) (by decide) (by decide)).2 (by decide)).2.2⟩

end NumaAlloc
